import Mathlib

/-!
spirit-blockchain: validation, ledger update and join-time sync.

A shallow embedding of `chainsubscription.go`, `sync.go` and the event loop of
`ui.go`.

* Go `int` is the 64-bit two's-complement integer: fields are `Int` and
  arithmetic wraps (`intAdd`).
* Go `float32` is IEEE-754 binary32, modelled at the level of values by `F32`
  (one NaN, two infinities, signed finite values `± m · 2^e`), with addition
  rounded to nearest, ties to even.
* Go `string` is `String`.
* `crypto/sha256` followed by `hex.EncodeToString`, `strconv.Atoi` and
  `strconv.ParseFloat(_, 32)` are library code: they are the fields of `Lib`.
* A Go map with `float32` values that is only read through `m[k]` is a total
  function with default `0`.
-/

namespace Spirit

/-! ## Go `int` -/

/-- Two's-complement wrap of an integer into the range of a 64-bit Go `int`. -/
def wrapInt (x : Int) : Int := (x + 2 ^ 63) % 2 ^ 64 - 2 ^ 63

/-- Go `a + b` on `int`. -/
def intAdd (a b : Int) : Int := wrapInt (a + b)

/-! ## Go `float32` -/

/-- A binary32 value: NaN, a signed infinity, or the finite value
`(-1)^neg · m · 2^e`. Canonical finite values have `m < 2^24`,
`-149 ≤ e ≤ 104` and `2^23 ≤ m` unless `e = -149`. -/
inductive F32 where
  | nan : F32
  | inf (neg : Bool) : F32
  | fin (neg : Bool) (m : Nat) (e : Int) : F32
deriving DecidableEq, Repr

namespace F32

/-- The constant `0.0`. -/
def zero : F32 := .fin false 0 (-149)

/-- Number of binary digits of `n`, by halving at most `fuel` times. -/
def bitLenAux : Nat → Nat → Nat
  | 0, _ => 0
  | fuel + 1, n => if n = 0 then 0 else bitLenAux fuel (n / 2) + 1

/-- Number of binary digits of `n` (`0` for `0`). -/
def bitLen (n : Nat) : Nat := bitLenAux n n

/-- Round the exact magnitude `n · 2^e` with sign `neg` to binary32, to
nearest with ties to even; magnitudes of `2^128` and above become infinite. -/
def round (neg : Bool) (n : Nat) (e : Int) : F32 :=
  if n = 0 then .fin neg 0 (-149) else
  let bits := bitLen n
  let sh : Nat := max (bits - 24) (-149 - e).toNat
  if sh = 0 then
    let k : Nat := min (24 - bits) (e + 149).toNat
    let e1 : Int := e - k
    if e1 > 104 then .inf neg else .fin neg (n * 2 ^ k) e1
  else
    let q := n / 2 ^ sh
    let r := n % 2 ^ sh
    let half := 2 ^ (sh - 1)
    let q1 := if r > half ∨ (r = half ∧ q % 2 = 1) then q + 1 else q
    let e1 : Int := e + sh
    if q1 = 2 ^ 24 then
      (if e1 + 1 > 104 then .inf neg else .fin neg (2 ^ 23) (e1 + 1))
    else if e1 > 104 then .inf neg else .fin neg q1 e1

/-- The integer `± m`. -/
def signed (neg : Bool) (m : Nat) : Int := if neg then -(m : Int) else (m : Int)

/-- Go `x + y` on `float32`. -/
def add : F32 → F32 → F32
  | .nan, _ => .nan
  | _, .nan => .nan
  | .inf a, .inf b => if a = b then .inf a else .nan
  | .inf a, .fin _ _ _ => .inf a
  | .fin _ _ _, .inf b => .inf b
  | .fin s1 m1 e1, .fin s2 m2 e2 =>
    let e := min e1 e2
    let s : Int := signed s1 (m1 * 2 ^ (e1 - e).toNat) + signed s2 (m2 * 2 ^ (e2 - e).toNat)
    if s = 0 then .fin (s1 && s2) 0 (-149) else round (decide (s < 0)) s.natAbs e

/-- Go `x < 0.0`. -/
def lt0 : F32 → Bool
  | .nan => false
  | .inf neg => neg
  | .fin neg m _ => neg && m != 0

/-- Go `x > 0`. -/
def gt0 : F32 → Bool
  | .nan => false
  | .inf neg => !neg
  | .fin neg m _ => !neg && m != 0

/-- Go `x != 0`. -/
def ne0 : F32 → Bool
  | .nan => true
  | .inf _ => true
  | .fin _ m _ => m != 0

/-- Go `x >= 0`. -/
def ge0 : F32 → Bool
  | .nan => false
  | .inf neg => !neg
  | .fin neg m _ => !neg || m == 0

/-- The binary32 value of a small integer. -/
def ofInt (i : Int) : F32 :=
  if i = 0 then zero else round (decide (i < 0)) i.natAbs 0

/-- Whether a value is a finite binary32 number: a significand below `2^24`
and an exponent from -149 to 104. -/
def IsFinite : F32 → Prop
  | .fin _ m e => m < 2 ^ 24 ∧ -149 ≤ e ∧ e ≤ 104
  | _ => False

/-- The exact value of a finite number in units of `2^-149`, the smallest
positive binary32 value: an integer. -/
def units : F32 → Int
  | .fin neg m e => signed neg (m * 2 ^ (e + 149).toNat)
  | _ => 0

/-- Whether a number of units of `2^-149` is the exact value of a finite
binary32 number: `± m · 2^k` with `m < 2^24` and `k` at most 253. -/
def Representable (N : Int) : Prop :=
  ∃ m k : Nat, m < 2 ^ 24 ∧ k ≤ 253 ∧ N.natAbs = m * 2 ^ k

end F32

/-! ## Text rendering of numbers -/

/-- The character of a decimal digit. -/
def digitChar (d : Nat) : Char := Char.ofNat (48 + d)

/-- Decimal digits of `n` put in front of `acc`, most significant first, by
dividing by ten at most `fuel` times. -/
def natStrAux : Nat → Nat → List Char → List Char
  | 0, _, acc => acc
  | fuel + 1, n, acc =>
    if n < 10 then digitChar n :: acc
    else natStrAux fuel (n / 10) (digitChar (n % 10) :: acc)

/-- Decimal digits of a natural number, most significant first. -/
def natStr (n : Nat) : List Char := natStrAux (n + 1) n []

/-- Go `strconv.Itoa`. -/
def Itoa (i : Int) : String :=
  if i < 0 then ⟨'-' :: natStr i.natAbs⟩ else ⟨natStr i.natAbs⟩

/-- The exact value `m · 2^e · 10^6` rounded to an integer, ties to even. -/
def scaled6 (m : Nat) (e : Int) : Nat :=
  if 0 ≤ e then m * 2 ^ e.toNat * 10 ^ 6 else
  let num := m * 10 ^ 6
  let den := 2 ^ (-e).toNat
  let q := num / den
  let r := num % den
  if 2 * r > den ∨ (2 * r = den ∧ q % 2 = 1) then q + 1 else q

/-- Left-pad a digit string with zeros to six characters. -/
def pad6 (cs : List Char) : List Char := List.replicate (6 - cs.length) '0' ++ cs

/-- Go `fmt.Sprintf("%f", x)` for a `float32`: six digits after the point. -/
def fmtF : F32 → String
  | .nan => "NaN"
  | .inf false => "+Inf"
  | .inf true => "-Inf"
  | .fin neg m e =>
    let n := scaled6 m e
    ⟨(if neg then ['-'] else []) ++ natStr (n / 10 ^ 6) ++ ['.'] ++ pad6 (natStr (n % 10 ^ 6))⟩

/-! ## Data model (`chainsubscription.go`) -/

/-- A single block of the block chain. -/
structure Block where
  Index : Int
  PrevHash : String
  Timestamp : String
  CardId : Int
  Amount : F32
  Hash : String
  Sender : String
  SenderNick : String
deriving DecidableEq, Repr

/-- Request and reply messages. `Typ` is the field `Type` of the source: 1
(request index), 2 (request chain), 3 (return index) or 4 (return chain). -/
structure SpecialMessage where
  Typ : Int
  Timestamp : String
  Sender : String
  SenderNick : String
  Receiver : String
  Index : Int
  Blockchain : List Block
deriving DecidableEq, Repr

/-- The library functions the program calls. -/
structure Lib where
  /-- `hex.EncodeToString` of the SHA-256 digest of the bytes of a string. -/
  sha256Hex : String → String
  /-- `strconv.Atoi`; `none` is an error. -/
  Atoi : String → Option Int
  /-- `strconv.ParseFloat(s, 32)` converted with `float32`; `none` is an error. -/
  ParseFloat32 : String → Option F32

/-- The string `calculateBlockHash` hashes. -/
def blockRecord (block : Block) : String :=
  Itoa block.Index ++ block.Timestamp ++ Itoa block.CardId ++ fmtF block.Amount ++ block.PrevHash

/-- Go `calculateBlockHash`. -/
def calculateBlockHash (L : Lib) (block : Block) : String :=
  L.sha256Hex (blockRecord block)

/-- Go `GetGenesisBlock`; `now` is `time.Now().String()`. -/
def GetGenesisBlock (now : String) : Block :=
  { Index := 0, PrevHash := "", Timestamp := now, CardId := -1, Amount := F32.zero,
    Hash := "genesis-block-placeholder", Sender := "", SenderNick := "" }

/-- The fields of `ChainSubscription` the ledger logic reads and writes;
`self` is `cs.self.Pretty()`. -/
structure ChainSubscription where
  Chain : List Block
  balance : Int → F32
  self : String
  nickName : String
  typePos : String

/-- Go `cs.balance[k] += v`. -/
def balanceAdd (balance : Int → F32) (k : Int) (v : F32) : Int → F32 :=
  fun j => if j = k then F32.add (balance k) v else balance j

/-- Go `GetLatestBlock`: `cs.Chain[len(cs.Chain)-1]`; `none` is the
index-out-of-range panic on an empty chain. -/
def GetLatestBlock (cs : ChainSubscription) : Option Block := cs.Chain.getLast?

/-- Go `ValidateBlockAddition`; `none` is the panic of `GetLatestBlock`. -/
def ValidateBlockAddition (L : Lib) (cs : ChainSubscription) (newBlock : Block) : Option Bool :=
  match GetLatestBlock cs with
  | none => none
  | some prevBlock =>
    if newBlock.Index ≠ intAdd prevBlock.Index 1 then some false
    else if newBlock.PrevHash ≠ prevBlock.Hash then some false
    else if calculateBlockHash L newBlock ≠ newBlock.Hash then some false
    else if F32.lt0 (F32.add (cs.balance newBlock.CardId) newBlock.Amount) then some false
    else if newBlock.CardId < 1 then some false
    else some true

/-! ## The event loop (`ui.go`) -/

/-- Go `strings.Split(s, " ")` on the characters of `s`. -/
def splitChars : List Char → List (List Char)
  | [] => [[]]
  | c :: cs =>
    if c = ' ' then [] :: splitChars cs
    else match splitChars cs with
      | [] => [[c]]
      | w :: ws => (c :: w) :: ws

/-- Go `strings.Split(input, " ")`. -/
def Split (input : String) : List String := (splitChars input.data).map String.mk

/-- How a call that can fail ends: a value, a returned error, or a run-time
panic. -/
inductive Outcome (α : Type) where
  | ok (a : α) : Outcome α
  | error : Outcome α
  | panic : Outcome α
deriving Repr

/-- Go `getBlockFromInputString`; `now` is `time.Now().String()`. -/
def getBlockFromInputString (L : Lib) (input now : String) (cs : ChainSubscription) :
    Outcome Block :=
  match Split input with
  | [s0, s1] =>
    match L.Atoi s0 with
    | none => .error
    | some cardId =>
      match L.ParseFloat32 s1 with
      | none => .error
      | some amount =>
        match GetLatestBlock cs with
        | none => .panic
        | some latestBlock =>
          let block : Block :=
            { Index := intAdd latestBlock.Index 1, PrevHash := latestBlock.Hash,
              Timestamp := now, CardId := cardId, Amount := amount,
              Hash := "", Sender := "", SenderNick := "" }
          .ok { block with Hash := calculateBlockHash L block, Sender := cs.self,
                           SenderNick := cs.nickName }
  | _ => .error

/-- What the `select` of `handleEvents` receives: a line from `inputCh` (with
the time at which it is handled), a block from `cs.Blocks`, or a tick of the
peer-refresh ticker. -/
inductive Event where
  | input (line now : String) : Event
  | block (blk : Block) : Event
  | tick : Event

/-- One iteration of the loop of `handleEvents`: the new state and the blocks
handed to `cs.Publish`; `none` is a panic. Display and log output is left out. -/
def handleEvent (L : Lib) (cs : ChainSubscription) : Event →
    Option (ChainSubscription × List Block)
  | .input line now =>
    match getBlockFromInputString L line now cs with
    | .error => some (cs, [])
    | .panic => none
    | .ok block =>
      if F32.lt0 block.Amount && cs.typePos == "cash" then some (cs, [])
      else if F32.gt0 block.Amount && cs.typePos == "retail" then some (cs, [])
      else
        match ValidateBlockAddition L cs block with
        | none => none
        | some true =>
          if F32.ne0 block.Amount then
            some ({ cs with balance := balanceAdd cs.balance block.CardId block.Amount,
                            Chain := cs.Chain ++ [block] }, [block])
          else some (cs, [])
        | some false => some (cs, [])
  | .block blk =>
    match ValidateBlockAddition L cs blk with
    | none => none
    | some true =>
      some ({ cs with Chain := cs.Chain ++ [blk],
                      balance := balanceAdd cs.balance blk.CardId blk.Amount }, [])
    | some false => some (cs, [])
  | .tick => some (cs, [])

/-- The loop of `handleEvents` over a finite sequence of events: the final
state, or `none` when an iteration panics. -/
def handleEvents (L : Lib) : ChainSubscription → List Event → Option ChainSubscription
  | cs, [] => some cs
  | cs, ev :: evs =>
    match handleEvent L cs ev with
    | none => none
    | some (cs1, _) => handleEvents L cs1 evs

/-! ## The ingestion loop (`readBlocks`) -/

/-- An inbound pubsub message: who it was received from, and what
`json.Unmarshal` makes of its data as a `Block` and as a `SpecialMessage`
(`none` is a decoding error). -/
structure Message where
  ReceivedFrom : String
  asBlock : Option Block
  asSpecial : Option SpecialMessage

/-- What one iteration of `readBlocks` does to the outside. -/
inductive RouterAction where
  | enqueue (block : Block) : RouterAction
  | publish (msg : SpecialMessage) : RouterAction
deriving DecidableEq, Repr

/-- The reply of `readBlocks` to a type-1 message of `specialMsg`. -/
def indexReturnMsg (cs : ChainSubscription) (specialMsg : SpecialMessage) (now : String)
    (latest : Block) : SpecialMessage :=
  { Typ := 3, Timestamp := now, Sender := cs.self, SenderNick := cs.nickName,
    Receiver := specialMsg.Sender, Index := latest.Index, Blockchain := [] }

/-- The reply of `readBlocks` to a type-2 message of `specialMsg`. -/
def chainReturnMsg (cs : ChainSubscription) (specialMsg : SpecialMessage) (now : String) :
    SpecialMessage :=
  { Typ := 4, Timestamp := now, Sender := cs.self, SenderNick := cs.nickName,
    Receiver := specialMsg.Sender, Index := 0, Blockchain := cs.Chain }

/-- One iteration of the loop of `readBlocks` on a delivered message: the
state afterwards and the actions taken, in order; `none` is a panic. -/
def readBlocks (cs : ChainSubscription) (msg : Message) (now : String) :
    Option (ChainSubscription × List RouterAction) :=
  if msg.ReceivedFrom = cs.self then some (cs, [])
  else
    match msg.asBlock with
    | some block =>
      if block.PrevHash ≠ "" then some (cs, [.enqueue block]) else readSpecial
    | none => readSpecial
where
  /-- The part of the iteration after the attempt to read a block. -/
  readSpecial : Option (ChainSubscription × List RouterAction) :=
    match msg.asSpecial with
    | none => some (cs, [])
    | some specialMsg =>
      let second : List RouterAction :=
        if specialMsg.Typ = 2 ∧ specialMsg.Receiver = cs.self then
          [.publish (chainReturnMsg cs specialMsg now)]
        else []
      if specialMsg.Typ = 1 then
        match GetLatestBlock cs with
        | none => none
        | some latest => some (cs, .publish (indexReturnMsg cs specialMsg now latest) :: second)
      else some (cs, second)

/-! ## Join-time sync (`sync.go`, `SubscribeToChain`) -/

/-- How a blocking read loop ends on a finite sequence of delivered messages:
with a value, with a panic, or still waiting for the next message. -/
inductive Sync (α : Type) where
  | done (a : α) : Sync α
  | panic : Sync α
  | blocked : Sync α
deriving Repr

/-- A Go `map[string]int` as its entries, one per key. -/
abbrev PeerIndices := List (String × Int)

/-- Go `m[k] = v`. -/
def mapSet (m : PeerIndices) (k : String) (v : Int) : PeerIndices :=
  if m.any (fun p => p.1 == k) then m.map (fun p => if p.1 = k then (k, v) else p)
  else m ++ [(k, v)]

/-- The first loop of `ReadIndices`: `need` is `numPeers - i`; the result is
the map and the messages not yet read. A message is its decoding as a
`SpecialMessage`. -/
def collectIndices (self : String) :
    List (Option SpecialMessage) → Nat → PeerIndices →
      Sync (PeerIndices × List (Option SpecialMessage))
  | msgs, 0, peerIndices => .done (peerIndices, msgs)
  | [], _ + 1, _ => .blocked
  | none :: rest, need + 1, peerIndices => collectIndices self rest (need + 1) peerIndices
  | some indexMsg :: rest, need + 1, peerIndices =>
    if indexMsg.Typ = 3 ∧ indexMsg.Receiver = self then
      collectIndices self rest need (mapSet peerIndices indexMsg.Sender indexMsg.Index)
    else collectIndices self rest (need + 1) peerIndices

/-- The second loop of `ReadIndices` over the entries in the order the
`range` visits them: `(maxSender, maxTillNow)`. -/
def selectMax (entries : List (String × Int)) : String × Int :=
  entries.foldl (fun acc kv => if kv.2 > acc.2 then (kv.1, kv.2) else acc) ("", -1)

/-- Go `ReadIndices`: `(maxSender, maxTillNow)` and the messages not yet read.
`range` is the order in which the runtime iterates over the map. -/
def ReadIndices (cs : ChainSubscription) (numPeers : Nat) (msgs : List (Option SpecialMessage))
    (range : PeerIndices → List (String × Int)) :
    Sync ((String × Int) × List (Option SpecialMessage)) :=
  match collectIndices cs.self msgs numPeers [] with
  | .done (peerIndices, rest) => .done (selectMax (range peerIndices), rest)
  | .panic => .panic
  | .blocked => .blocked

/-- Go `ReadChain`: the state afterwards and the messages not yet read. -/
def ReadChain (cs : ChainSubscription) :
    List (Option SpecialMessage) → Sync (ChainSubscription × List (Option SpecialMessage))
  | [] => .blocked
  | none :: _ => .panic
  | some chainMsg :: rest =>
    if chainMsg.Typ = 4 ∧ chainMsg.Receiver = cs.self then
      .done ({ cs with
                Chain := chainMsg.Blockchain,
                balance := chainMsg.Blockchain.foldl
                  (fun bal blk => balanceAdd bal blk.CardId blk.Amount) cs.balance }, rest)
    else ReadChain cs rest

/-- The message `RequestIndices` publishes. -/
def requestIndicesMsg (cs : ChainSubscription) (now : String) : SpecialMessage :=
  { Typ := 1, Timestamp := now, Sender := cs.self, SenderNick := cs.nickName,
    Receiver := "", Index := 0, Blockchain := [] }

/-- The message `RequestMaxBlockChain` publishes. -/
def requestMaxBlockChainMsg (cs : ChainSubscription) (receiverID now : String) :
    SpecialMessage :=
  { Typ := 2, Timestamp := now, Sender := cs.self, SenderNick := cs.nickName,
    Receiver := receiverID, Index := 0, Blockchain := [] }

/-- The `ChainSubscription` that `SubscribeToChain` constructs, with the
genesis block appended. -/
def newChainSubscription (self nickName typePos now : String) : ChainSubscription :=
  { Chain := [] ++ [GetGenesisBlock now], balance := fun _ => F32.zero,
    self := self, nickName := nickName, typePos := typePos }

/-- Go `SubscribeToChain` after the topic is joined: the subscription it
returns and the messages it published, in order. `numPeers` is the number of
listed peers, `msgs` the messages delivered to the subscription, `now` the
time of each call of `time.Now`. -/
def SubscribeToChain (self nickName typePos now : String) (numPeers : Nat)
    (msgs : List (Option SpecialMessage)) (range : PeerIndices → List (String × Int)) :
    Sync (ChainSubscription × List SpecialMessage) :=
  let cs := newChainSubscription self nickName typePos now
  match ReadIndices cs numPeers msgs range with
  | .panic => .panic
  | .blocked => .blocked
  | .done ((maxIndexPeer, maxLengthChain), rest) =>
    if maxLengthChain > 0 then
      match ReadChain cs rest with
      | .panic => .panic
      | .blocked => .blocked
      | .done (cs1, _) =>
        .done (cs1, [requestIndicesMsg cs now, requestMaxBlockChainMsg cs maxIndexPeer now])
    else .done (cs, [requestIndicesMsg cs now])


/-- Go `v, ok := m[k]`: the value recorded for `k`, if any. -/
def mapGet : PeerIndices → String → Option Int
  | [], _ => none
  | p :: m, k => if p.1 = k then some p.2 else mapGet m k

/-- The message, when the first loop of `ReadIndices` counts it: it decodes,
has type 3 and is addressed to `self`. -/
def countedReply (self : String) : Option SpecialMessage → Option SpecialMessage
  | none => none
  | some indexMsg =>
    if indexMsg.Typ = 3 ∧ indexMsg.Receiver = self then some indexMsg else none

/-! ## The balance table as a fold of the chain -/

/-- The balance of `accountId` recomputed from a chain, as the data model
describes it: the `float32` sum, from zero and in chain order, of `Amount` over
the blocks whose `CardId` is `accountId`. -/
def sumAmounts (chain : List Block) (accountId : Int) : F32 :=
  chain.foldl (fun acc blk => if blk.CardId = accountId then F32.add acc blk.Amount else acc)
    F32.zero

/-! ## Reading a rendered number back -/

/-- The number a string of decimal digits denotes. -/
def decValue (cs : List Char) : Nat :=
  cs.foldl (fun acc c => acc * 10 + (c.toNat - 48)) 0

/-! ## A library instance for concrete runs -/

/-- Decimal value of a string of digits; `none` when a character is no digit
or the string is empty. -/
def digitsVal (cs : List Char) : Option Nat :=
  if cs = [] then none else
  cs.foldl (fun acc c =>
    match acc with
    | none => none
    | some a => if '0' ≤ c ∧ c ≤ '9' then some (a * 10 + (c.toNat - 48)) else none) (some 0)

/-- Signed decimal integers as `strconv.Atoi` reads them (range check left out). -/
def demoAtoi (s : String) : Option Int :=
  match s.data with
  | '-' :: cs => (digitsVal cs).map (fun n => -(n : Int))
  | '+' :: cs => (digitsVal cs).map (fun n => (n : Int))
  | cs => (digitsVal cs).map (fun n => (n : Int))

/-- The special values `strconv.ParseFloat` recognises and signed decimal
integers, as `float32`. -/
def demoParseFloat32 (s : String) : Option F32 :=
  if s = "NaN" then some .nan
  else if s = "Inf" ∨ s = "+Inf" then some (.inf false)
  else if s = "-Inf" then some (.inf true)
  else if s = "-0" then some (.fin true 0 (-149))
  else (demoAtoi s).map F32.ofInt

/-- A library instance on which the definitions can be run: the two parsers
restricted to simple inputs, and the identity standing in for the digest. -/
def demoLib : Lib :=
  { sha256Hex := fun record => record, Atoi := demoAtoi, ParseFloat32 := demoParseFloat32 }


/-! ## Concrete states and inputs -/

/-- A freshly constructed subscription of a cash terminal: genesis-only chain
and empty balance table. -/
def freshCash : ChainSubscription := newChainSubscription "QmSelf" "pos1" "cash" "t0"

/-- The block a terminal builds on `freshCash` from the line `1 NaN`, which
`strconv.ParseFloat` reads as a NaN amount for card 1. -/
def nanCandidate (L : Lib) : Block :=
  let block : Block :=
    { Index := 1, PrevHash := "genesis-block-placeholder", Timestamp := "t1", CardId := 1,
      Amount := .nan, Hash := "", Sender := "", SenderNick := "" }
  { block with Hash := calculateBlockHash L block, Sender := "QmSelf", SenderNick := "pos1" }

/-- A credit of 10 on card 1 built on `freshCash` by another peer. -/
def creditTen (L : Lib) : Block :=
  let block : Block :=
    { Index := 1, PrevHash := "genesis-block-placeholder", Timestamp := "t1", CardId := 1,
      Amount := F32.ofInt 10, Hash := "", Sender := "", SenderNick := "" }
  { block with Hash := calculateBlockHash L block, Sender := "QmPeer", SenderNick := "pos2" }

/-- Two events on `freshCash`: the remote credit of 10 on card 1, then a
local top-up of 5 typed at the terminal. -/
def twoEvents : List Event := [.block (creditTen demoLib), .input "1 5" "t2"]

/-- A type-4 reply addressed to `QmSelf` whose chain is not linked: the second
block has index 7 on a predecessor of index 0, and debits 15 from card 1. -/
def forgedReply : SpecialMessage :=
  { Typ := 4, Timestamp := "t3", Sender := "QmPeer", SenderNick := "pos2",
    Receiver := "QmSelf", Index := 0,
    Blockchain := [GetGenesisBlock "t9",
      { Index := 7, PrevHash := "x", Timestamp := "t4", CardId := 1,
        Amount := F32.ofInt (-15), Hash := "y", Sender := "QmPeer", SenderNick := "pos2" }] }

/-- A type-4 reply addressed to `QmSelf` carrying the chain of a peer that
has applied `creditTen`. -/
def linkedReply : SpecialMessage :=
  { Typ := 4, Timestamp := "t3", Sender := "QmPeer", SenderNick := "pos2",
    Receiver := "QmSelf", Index := 0,
    Blockchain := [GetGenesisBlock "t0", creditTen demoLib] }

/-- A type-3 reply addressed to `QmSelf` from `sender` reporting `index`. -/
def indexReply (sender : String) (index : Int) : SpecialMessage :=
  { Typ := 3, Timestamp := "t1", Sender := sender, SenderNick := "pos", Receiver := "QmSelf",
    Index := index, Blockchain := [] }

/-- A block with amount 1. -/
def amountOne : Block :=
  { Index := 1, PrevHash := "genesis-block-placeholder", Timestamp := "t1", CardId := 1,
    Amount := .fin false (2 ^ 23) (-23), Hash := "", Sender := "", SenderNick := "" }

/-- The same block with the next `float32` above 1 as amount, `1 + 2^-23`. -/
def amountOneNext : Block :=
  { amountOne with Amount := .fin false (2 ^ 23 + 1) (-23) }

/-- The index request of peer `QmX` as `readBlocks` receives it from `QmX`:
it decodes as a `Block` with an empty `PrevHash` and as a type-1
`SpecialMessage`. -/
def indexRequestFromX : Message :=
  { ReceivedFrom := "QmX",
    asBlock := some { Index := 0, PrevHash := "", Timestamp := "t5", CardId := 0,
                      Amount := F32.zero, Hash := "", Sender := "QmX", SenderNick := "posX" },
    asSpecial := some { Typ := 1, Timestamp := "t5", Sender := "QmX", SenderNick := "posX",
                        Receiver := "", Index := 0, Blockchain := [] } }

/-- A credit of 16777216 (`2^24`) on card 1 built on `freshCash` by another
peer. -/
def creditBig (L : Lib) : Block :=
  let block : Block :=
    { Index := 1, PrevHash := "genesis-block-placeholder", Timestamp := "t1", CardId := 1,
      Amount := F32.ofInt 16777216, Hash := "", Sender := "", SenderNick := "" }
  { block with Hash := calculateBlockHash L block, Sender := "QmPeer", SenderNick := "pos2" }

/-- The state of `freshCash` after `creditBig` was applied. -/
def bigState (L : Lib) : ChainSubscription :=
  { freshCash with Chain := freshCash.Chain ++ [creditBig L],
                   balance := balanceAdd freshCash.balance 1 (F32.ofInt 16777216) }

/-- A credit of 1 on card 1 built on `bigState` by another peer. -/
def plusOne (L : Lib) : Block :=
  let block : Block :=
    { Index := 2, PrevHash := (creditBig L).Hash, Timestamp := "t2", CardId := 1,
      Amount := F32.ofInt 1, Hash := "", Sender := "", SenderNick := "" }
  { block with Hash := calculateBlockHash L block, Sender := "QmPeer", SenderNick := "pos2" }

/-! ## Checks on concrete values -/

set_option maxRecDepth 10000

example : F32.add (F32.ofInt 10) (F32.ofInt (-15)) = F32.ofInt (-5) := by decide
example : fmtF (F32.ofInt (-15)) = "-15.000000" := by decide
example : fmtF (.fin true (2^23) (-30)) = "-0.007812" := by decide
example : Itoa (-120) = "-120" := by decide
example : Itoa 0 = "0" := by decide
example : Split "12 -3.5" = ["12", "-3.5"] := by decide
example : Split "a  b" = ["a", "", "b"] := by decide
example : Split "" = [""] := by decide

/-! ## The validator -/

theorem getLatestBlock_append (cs : ChainSubscription) (chain : List Block) (b : Block) :
    GetLatestBlock { cs with Chain := chain ++ [b] } = some b := by
  simp [GetLatestBlock]

/-- The five checks of `ValidateBlockAddition`, as the code evaluates them. -/
theorem validate_eq_true_iff (L : Lib) (cs : ChainSubscription) (tip b : Block)
    (htip : GetLatestBlock cs = some tip) :
    ValidateBlockAddition L cs b = some true ↔
      b.Index = intAdd tip.Index 1 ∧ b.PrevHash = tip.Hash ∧
      calculateBlockHash L b = b.Hash ∧
      F32.lt0 (F32.add (cs.balance b.CardId) b.Amount) = false ∧ 1 ≤ b.CardId := by
  unfold ValidateBlockAddition
  rw [htip]
  by_cases h1 : b.Index = intAdd tip.Index 1 <;>
  by_cases h2 : b.PrevHash = tip.Hash <;>
  by_cases h3 : calculateBlockHash L b = b.Hash <;>
  by_cases h4 : F32.lt0 (F32.add (cs.balance b.CardId) b.Amount) = true <;>
  by_cases h5 : b.CardId < 1 <;>
  simp [h1, h2, h3, h4, h5]
  all_goals omega

theorem validate_isSome (L : Lib) (cs : ChainSubscription) (tip b : Block)
    (htip : GetLatestBlock cs = some tip) :
    ValidateBlockAddition L cs b = some true ∨ ValidateBlockAddition L cs b = some false := by
  unfold ValidateBlockAddition
  rw [htip]
  dsimp only
  split_ifs
  all_goals simp

theorem ge0_iff_not_lt0 (x : F32) (hx : x ≠ .nan) : F32.ge0 x = true ↔ F32.lt0 x = false := by
  cases x with
  | nan => exact absurd rfl hx
  | inf neg => cases neg <;> simp [F32.ge0, F32.lt0]
  | fin neg m e => cases neg <;> simp [F32.ge0, F32.lt0]

/-- Away from a NaN sum the fourth check is `balance + amount >= 0`. -/
theorem validate_eq_true_iff_ge0 (L : Lib) (cs : ChainSubscription) (tip b : Block)
    (htip : GetLatestBlock cs = some tip)
    (hnan : F32.add (cs.balance b.CardId) b.Amount ≠ .nan) :
    ValidateBlockAddition L cs b = some true ↔
      b.Index = intAdd tip.Index 1 ∧ b.PrevHash = tip.Hash ∧
      calculateBlockHash L b = b.Hash ∧
      F32.ge0 (F32.add (cs.balance b.CardId) b.Amount) = true ∧ 1 ≤ b.CardId := by
  rw [validate_eq_true_iff L cs tip b htip, ge0_iff_not_lt0 _ hnan]

/-- The fresh chain has the genesis block as its tip. -/
theorem getLatestBlock_freshCash : GetLatestBlock freshCash = some (GetGenesisBlock "t0") := rfl

/-- The NaN candidate passes all five checks on the fresh chain. -/
theorem validate_nanCandidate (L : Lib) :
    ValidateBlockAddition L freshCash (nanCandidate L) = some true :=
  (validate_eq_true_iff L freshCash _ _ getLatestBlock_freshCash).2
    ⟨rfl, rfl, rfl, rfl, by simp [nanCandidate]⟩

/-- C1, at the input where the code departs from it: on the genesis-only
chain with an empty balance table, `ValidateBlockAddition` returns true for the
well-linked, correctly hashed candidate on card 1 whose amount is NaN, for
every digest function, although `balance[1] + amount >= 0` is false there (the
fourth check only rejects a sum that is `< 0`, which a NaN sum is not). -/
theorem C1_validate_accepts_nan_sum :
    (∀ L : Lib, GetLatestBlock freshCash = some (GetGenesisBlock "t0") ∧
      ValidateBlockAddition L freshCash (nanCandidate L) = some true ∧
      (nanCandidate L).Index = intAdd (GetGenesisBlock "t0").Index 1 ∧
      (nanCandidate L).PrevHash = (GetGenesisBlock "t0").Hash ∧
      calculateBlockHash L (nanCandidate L) = (nanCandidate L).Hash ∧
      1 ≤ (nanCandidate L).CardId) ∧
    F32.ge0 (F32.add (freshCash.balance 1) F32.nan) = false :=
  ⟨fun L => ⟨getLatestBlock_freshCash, validate_nanCandidate L, rfl, rfl, rfl,
    by simp [nanCandidate]⟩, by decide⟩

/-! ## Applying blocks in the event loop -/

/-- What one iteration of the event loop can do to the state: nothing, or
append a block the validator accepted and add its amount to its card. -/
theorem handleEvent_cases (L : Lib) (cs cs1 : ChainSubscription) (ev : Event)
    (out : List Block) (h : handleEvent L cs ev = some (cs1, out)) :
    cs1 = cs ∨ ∃ b, ValidateBlockAddition L cs b = some true ∧
      cs1 = { cs with Chain := cs.Chain ++ [b],
                      balance := balanceAdd cs.balance b.CardId b.Amount } := by
  cases ev with
  | input line now =>
    simp only [handleEvent] at h
    cases hb : getBlockFromInputString L line now cs with
    | error => rw [hb] at h; simp at h; exact Or.inl h.1.symm
    | panic => rw [hb] at h; simp at h
    | ok block =>
      rw [hb] at h
      dsimp only at h
      rcases hv : ValidateBlockAddition L cs block with _ | v
      · rw [hv] at h
        split_ifs at h <;> simp at h <;> exact Or.inl h.1.symm
      · cases v
        · rw [hv] at h
          split_ifs at h <;> simp at h <;> exact Or.inl h.1.symm
        · rw [hv] at h
          split_ifs at h
          · simp at h; exact Or.inl h.1.symm
          · simp at h; exact Or.inl h.1.symm
          · simp at h; exact Or.inr ⟨block, hv, h.1.symm⟩
          · simp at h; exact Or.inl h.1.symm
  | block blk =>
    simp only [handleEvent] at h
    rcases hv : ValidateBlockAddition L cs blk with _ | v
    · rw [hv] at h; simp at h
    · cases v
      · rw [hv] at h; simp at h; exact Or.inl h.1.symm
      · rw [hv] at h; simp at h; exact Or.inr ⟨blk, hv, h.1.symm⟩
  | tick =>
    simp [handleEvent] at h; exact Or.inl h.1.symm

/-- An invariant of single iterations is an invariant of the loop. -/
theorem handleEvents_induction (L : Lib) (P : ChainSubscription → Prop)
    (hstep : ∀ cs cs1 ev out, P cs → handleEvent L cs ev = some (cs1, out) → P cs1) :
    ∀ (evs : List Event) (cs cs1 : ChainSubscription),
      P cs → handleEvents L cs evs = some cs1 → P cs1 := by
  intro evs
  induction evs with
  | nil =>
    intro cs cs1 hP h
    simp [handleEvents] at h
    exact h ▸ hP
  | cons ev evs ih =>
    intro cs cs1 hP h
    simp only [handleEvents] at h
    split at h
    · simp at h
    · rename_i cs2 out hev
      exact ih cs2 cs1 (hstep cs cs2 ev out hP hev) h

/-! ## The chain-link invariant in the event loop -/

/-- When the validator accepts, the chain has a tip and the three link checks
and the balance and card checks hold against it. -/
theorem validate_true_tip (L : Lib) (cs : ChainSubscription) (b : Block)
    (h : ValidateBlockAddition L cs b = some true) :
    ∃ tip, GetLatestBlock cs = some tip ∧
      b.Index = intAdd tip.Index 1 ∧ b.PrevHash = tip.Hash ∧
      calculateBlockHash L b = b.Hash ∧
      F32.lt0 (F32.add (cs.balance b.CardId) b.Amount) = false ∧ 1 ≤ b.CardId := by
  cases htip : GetLatestBlock cs with
  | none => simp [ValidateBlockAddition, htip] at h
  | some tip => exact ⟨tip, rfl, (validate_eq_true_iff L cs tip b htip).1 h⟩

theorem chain'_getElem? {α : Type} (R : α → α → Prop) :
    ∀ (l : List α), List.Chain' R l →
      ∀ (i : Nat) (a b : α), l[i]? = some a → l[i + 1]? = some b → R a b
  | [], _, i, a, b, ha, _ => by simp at ha
  | [x], _, i, a, b, _, hb => by simp at hb
  | x :: y :: l, h, 0, a, b, ha, hb => by
    simp at ha hb
    subst ha hb
    exact (List.chain'_cons.1 h).1
  | x :: y :: l, h, i + 1, a, b, ha, hb => by
    rw [List.getElem?_cons_succ] at ha
    rw [List.getElem?_cons_succ] at hb
    exact chain'_getElem? R (y :: l) (List.chain'_cons.1 h).2 i a b ha hb

/-- One iteration of the event loop keeps the chain linked. -/
theorem handleEvent_linked (L : Lib) (cs cs1 : ChainSubscription) (ev : Event)
    (out : List Block)
    (hP : List.Chain' (fun prev cur : Block => cur.Index = intAdd prev.Index 1 ∧
      cur.PrevHash = prev.Hash ∧ calculateBlockHash L cur = cur.Hash) cs.Chain)
    (h : handleEvent L cs ev = some (cs1, out)) :
    List.Chain' (fun prev cur : Block => cur.Index = intAdd prev.Index 1 ∧
      cur.PrevHash = prev.Hash ∧ calculateBlockHash L cur = cur.Hash) cs1.Chain := by
  rcases handleEvent_cases L cs cs1 ev out h with h1 | ⟨b, hv, h1⟩
  · rw [h1]; exact hP
  · obtain ⟨tip, htip, hi, hp, hh, _, _⟩ := validate_true_tip L cs b hv
    rw [h1]
    refine List.chain'_append.2 ⟨hP, List.chain'_singleton b, ?_⟩
    intro x hx y hy
    simp only [GetLatestBlock] at htip
    rw [htip] at hx
    simp at hx hy
    subst hx hy
    exact ⟨hi, hp, hh⟩

/-- C3: starting from the genesis-only chain, after any finite sequence of
iterations of the event loop (local submissions, remote blocks, ticks) that
ends in a state `cs`, every block of `cs.Chain` after the first has the index
of its predecessor plus one, the hash of its predecessor as `PrevHash`, and
its own `calculateBlockHash` as `Hash`. -/
theorem C3_event_loop_keeps_chain_linked (L : Lib) (self nickName typePos now : String)
    (evs : List Event) (cs : ChainSubscription)
    (hrun : handleEvents L (newChainSubscription self nickName typePos now) evs = some cs) :
    ∀ i : Nat, 0 < i → ∀ prev cur : Block,
      cs.Chain[i - 1]? = some prev → cs.Chain[i]? = some cur →
        cur.Index = intAdd prev.Index 1 ∧ cur.PrevHash = prev.Hash ∧
          calculateBlockHash L cur = cur.Hash := by
  have hinv := handleEvents_induction L
    (fun cs => List.Chain' (fun prev cur : Block => cur.Index = intAdd prev.Index 1 ∧
      cur.PrevHash = prev.Hash ∧ calculateBlockHash L cur = cur.Hash) cs.Chain)
    (fun cs cs1 ev out hP h => handleEvent_linked L cs cs1 ev out hP h)
    evs _ cs (by simp [newChainSubscription]) hrun
  intro i hi prev cur hprev hcur
  obtain ⟨j, rfl⟩ : ∃ j, i = j + 1 := ⟨i - 1, by omega⟩
  exact chain'_getElem? _ cs.Chain hinv j prev cur (by simpa using hprev) hcur

/-- C3 on a concrete run: after the remote credit and the local top-up the
chain has three blocks, and the theorem gives the links between them. -/
theorem C3_event_loop_keeps_chain_linked_witness :
    ∃ cs, handleEvents demoLib (newChainSubscription "QmSelf" "pos1" "cash" "t0") twoEvents
        = some cs ∧ cs.Chain.length = 3 ∧
      ∀ i : Nat, 0 < i → ∀ prev cur : Block,
        cs.Chain[i - 1]? = some prev → cs.Chain[i]? = some cur →
          cur.Index = intAdd prev.Index 1 ∧ cur.PrevHash = prev.Hash ∧
            calculateBlockHash demoLib cur = cur.Hash := by
  have h : (handleEvents demoLib (newChainSubscription "QmSelf" "pos1" "cash" "t0")
      twoEvents).map (fun cs => cs.Chain.length) = some 3 := by decide
  cases hrun : handleEvents demoLib (newChainSubscription "QmSelf" "pos1" "cash" "t0")
      twoEvents with
  | none => rw [hrun] at h; simp at h
  | some cs =>
    rw [hrun] at h
    exact ⟨cs, rfl, by simpa using h,
      C3_event_loop_keeps_chain_linked demoLib "QmSelf" "pos1" "cash" "t0" twoEvents cs hrun⟩

/-! ## Join-time adoption of a chain -/

/-- When `ReadChain` returns, the chain is the `Blockchain` of the first
type-4 message addressed to self, and every message before it decoded and
was not such a message. -/
theorem readChain_done (cs : ChainSubscription) :
    ∀ (msgs rest : List (Option SpecialMessage)) (cs1 : ChainSubscription),
      ReadChain cs msgs = .done (cs1, rest) →
        ∃ (pre : List SpecialMessage) (chainMsg : SpecialMessage),
          msgs = pre.map some ++ some chainMsg :: rest ∧
          (∀ m ∈ pre, ¬(m.Typ = 4 ∧ m.Receiver = cs.self)) ∧
          chainMsg.Typ = 4 ∧ chainMsg.Receiver = cs.self ∧
          cs1 = { cs with
                  Chain := chainMsg.Blockchain,
                  balance := chainMsg.Blockchain.foldl
                    (fun bal blk => balanceAdd bal blk.CardId blk.Amount) cs.balance }
  | [], rest, cs1, h => by simp [ReadChain] at h
  | none :: msgs, rest, cs1, h => by simp [ReadChain] at h
  | some m :: msgs, rest, cs1, h => by
    by_cases hm : m.Typ = 4 ∧ m.Receiver = cs.self
    · simp only [ReadChain, hm, and_self, if_true, Sync.done.injEq, Prod.mk.injEq] at h
      exact ⟨[], m, by simp [h.2], by simp, hm.1, hm.2, h.1.symm⟩
    · simp only [ReadChain, hm, if_false] at h
      obtain ⟨pre, chainMsg, h1, h2, h3, h4, h5⟩ := readChain_done cs msgs rest cs1 h
      refine ⟨m :: pre, chainMsg, by simp [h1], ?_, h3, h4, h5⟩
      intro x hx
      rcases List.mem_cons.1 hx with rfl | hx
      · exact hm
      · exact h2 x hx

/-- C4 as stated fails: `ReadChain` adopts the chain of `forgedReply`, whose
second block has index 7 after a block of index 0. -/
theorem C4_readChain_adopts_unlinked_chain :
    ∃ cs1, ReadChain freshCash [some forgedReply] = .done (cs1, []) ∧
      ∃ (i : Nat) (prev cur : Block), 0 < i ∧
        cs1.Chain[i - 1]? = some prev ∧ cs1.Chain[i]? = some cur ∧
        cur.Index ≠ intAdd prev.Index 1 :=
  ⟨_, rfl, 1, _, _, by decide, rfl, rfl, by decide⟩

/-- The chain of a state reached by the event loop from a freshly
constructed subscription is linked, block by block. -/
theorem linked_of_run (L : Lib) (self nickName typePos now : String)
    (evs : List Event) (cs : ChainSubscription)
    (hrun : handleEvents L (newChainSubscription self nickName typePos now) evs = some cs) :
    ∀ i : Nat, 0 < i → ∀ prev cur : Block,
      cs.Chain[i - 1]? = some prev → cs.Chain[i]? = some cur →
        cur.Index = intAdd prev.Index 1 ∧ cur.PrevHash = prev.Hash ∧
          calculateBlockHash L cur = cur.Hash := by
  have hinv := handleEvents_induction L
    (fun cs => List.Chain' (fun prev cur : Block => cur.Index = intAdd prev.Index 1 ∧
      cur.PrevHash = prev.Hash ∧ calculateBlockHash L cur = cur.Hash) cs.Chain)
    (fun cs cs1 ev out hP h => handleEvent_linked L cs cs1 ev out hP h)
    evs _ cs (by simp [newChainSubscription]) hrun
  intro i hi prev cur hprev hcur
  obtain ⟨j, rfl⟩ : ∃ j, i = j + 1 := ⟨i - 1, by omega⟩
  exact chain'_getElem? _ cs.Chain hinv j prev cur (by simpa using hprev) hcur

/-- C4, amended: `ReadChain` adopts the received chain as it is, without
validating it. When it returns, the messages it read are a run of decoded
messages none of which is a type-4 message addressed to self, followed by the
first type-4 message addressed to self, and the local chain equals the
`Blockchain` field of that message. Hence the local chain satisfies the
chain-link invariant exactly when the received chain does; it does so in
particular when the received chain is the chain of a peer that built it from
its genesis block in its own event loop. -/
theorem C4_readChain_adopts_received_chain (L : Lib) (cs cs1 : ChainSubscription)
    (msgs rest : List (Option SpecialMessage))
    (h : ReadChain cs msgs = .done (cs1, rest)) :
    ∃ (pre : List SpecialMessage) (chainMsg : SpecialMessage),
      msgs = pre.map some ++ some chainMsg :: rest ∧
      (∀ m ∈ pre, ¬(m.Typ = 4 ∧ m.Receiver = cs.self)) ∧
      chainMsg.Typ = 4 ∧ chainMsg.Receiver = cs.self ∧
      cs1.Chain = chainMsg.Blockchain ∧
      ((∀ i : Nat, 0 < i → ∀ prev cur : Block,
          chainMsg.Blockchain[i - 1]? = some prev → chainMsg.Blockchain[i]? = some cur →
            cur.Index = intAdd prev.Index 1 ∧ cur.PrevHash = prev.Hash ∧
              calculateBlockHash L cur = cur.Hash) ↔
        ∀ i : Nat, 0 < i → ∀ prev cur : Block,
          cs1.Chain[i - 1]? = some prev → cs1.Chain[i]? = some cur →
            cur.Index = intAdd prev.Index 1 ∧ cur.PrevHash = prev.Hash ∧
              calculateBlockHash L cur = cur.Hash) ∧
      (∀ (self nickName typePos now : String) (evs : List Event) (peer : ChainSubscription),
        handleEvents L (newChainSubscription self nickName typePos now) evs = some peer →
        chainMsg.Blockchain = peer.Chain →
          ∀ i : Nat, 0 < i → ∀ prev cur : Block,
            cs1.Chain[i - 1]? = some prev → cs1.Chain[i]? = some cur →
              cur.Index = intAdd prev.Index 1 ∧ cur.PrevHash = prev.Hash ∧
                calculateBlockHash L cur = cur.Hash) := by
  obtain ⟨pre, chainMsg, h1, h2, h3, h4, h5⟩ := readChain_done cs msgs rest cs1 h
  have hchain : cs1.Chain = chainMsg.Blockchain := by rw [h5]
  refine ⟨pre, chainMsg, h1, h2, h3, h4, hchain, by rw [hchain], ?_⟩
  intro self nickName typePos now evs peer hrun hpeer
  rw [hchain, hpeer]
  exact linked_of_run L self nickName typePos now evs peer hrun

/-- C4, amended, on a concrete join: `ReadChain` skips an index reply, adopts
the chain of `linkedReply`, the first type-4 message addressed to `QmSelf`,
and leaves the later `forgedReply` unread; the adopted chain is the one a
peer reaches by applying `creditTen` on its fresh chain, so it is linked. -/
theorem C4_readChain_adopts_received_chain_witness :
    ∃ cs1, ReadChain freshCash
        [some (indexReply "QmB" 1), some linkedReply, some forgedReply]
        = .done (cs1, [some forgedReply]) ∧
      cs1.Chain = [GetGenesisBlock "t0", creditTen demoLib] ∧
      ∀ i : Nat, 0 < i → ∀ prev cur : Block,
        cs1.Chain[i - 1]? = some prev → cs1.Chain[i]? = some cur →
          cur.Index = intAdd prev.Index 1 ∧ cur.PrevHash = prev.Hash ∧
            calculateBlockHash demoLib cur = cur.Hash := by
  have hread : ReadChain freshCash
      [some (indexReply "QmB" 1), some linkedReply, some forgedReply]
      = .done ({ freshCash with
                  Chain := linkedReply.Blockchain,
                  balance := linkedReply.Blockchain.foldl
                    (fun bal blk => balanceAdd bal blk.CardId blk.Amount) freshCash.balance },
               [some forgedReply]) := rfl
  obtain ⟨pre, chainMsg, h1, _, _, _, h5, _, h7⟩ :=
    C4_readChain_adopts_received_chain demoLib freshCash _ _ _ hread
  have hpeer : handleEvents demoLib (newChainSubscription "QmSelf" "pos1" "cash" "t0")
      [.block (creditTen demoLib)] =
      some { freshCash with
              Chain := freshCash.Chain ++ [creditTen demoLib],
              balance := balanceAdd freshCash.balance (creditTen demoLib).CardId
                (creditTen demoLib).Amount } := by
    have hv : ValidateBlockAddition demoLib freshCash (creditTen demoLib) = some true :=
      (validate_eq_true_iff demoLib freshCash (GetGenesisBlock "t0") (creditTen demoLib) rfl).2
        ⟨rfl, rfl, rfl,
          (by decide : F32.lt0 (F32.add (freshCash.balance 1) (F32.ofInt 10)) = false),
          by simp [creditTen]⟩
    show handleEvents demoLib freshCash [.block (creditTen demoLib)] = _
    simp only [handleEvents, handleEvent, hv]
  exact ⟨_, hread, rfl, h7 "QmSelf" "pos1" "cash" "t0" _ _ hpeer (by rw [← h5]; rfl)⟩

/-! ## Sign of the balances in the event loop -/

/-- No iteration of the event loop makes a balance compare `< 0`. -/
theorem handleEvents_no_balance_lt0 (L : Lib) (evs : List Event)
    (cs cs1 : ChainSubscription)
    (h0 : ∀ k, F32.lt0 (cs.balance k) = false)
    (hrun : handleEvents L cs evs = some cs1) :
    ∀ k, F32.lt0 (cs1.balance k) = false := by
  refine handleEvents_induction L (fun cs => ∀ k, F32.lt0 (cs.balance k) = false) ?_
    evs cs cs1 h0 hrun
  intro cs cs1 ev out hP h k
  rcases handleEvent_cases L cs cs1 ev out h with h1 | ⟨b, hv, h1⟩
  · rw [h1]; exact hP k
  · obtain ⟨tip, _, _, _, _, hbal, _⟩ := validate_true_tip L cs b hv
    rw [h1]
    by_cases hk : k = b.CardId
    · simp [balanceAdd, hk, hbal]
    · simp [balanceAdd, hk, hP k]

/-- C5, at the input where the code departs from it: on a fresh terminal
(every balance is `0 >= 0`) the local submission `1 NaN`, which `strconv`
reads as card 1 and a NaN amount, is validated and applied, and afterwards the
balance of card 1 is NaN, for which `>= 0` is false. -/
theorem C5_nan_submission_breaks_nonneg (L : Lib)
    (hAtoi : L.Atoi "1" = some 1) (hParse : L.ParseFloat32 "NaN" = some .nan) :
    (∀ k, F32.ge0 (freshCash.balance k) = true) ∧
    ∃ cs1, handleEvents L freshCash [.input "1 NaN" "t1"] = some cs1 ∧
      cs1.Chain = [GetGenesisBlock "t0", nanCandidate L] ∧
      cs1.balance 1 = .nan ∧ F32.ge0 (cs1.balance 1) = false := by
  have hsplit : Split "1 NaN" = ["1", "NaN"] := by decide
  have hblock : getBlockFromInputString L "1 NaN" "t1" freshCash = .ok (nanCandidate L) := by
    simp only [getBlockFromInputString, hsplit, hAtoi, hParse, getLatestBlock_freshCash]
    rfl
  have hstep : handleEvent L freshCash (.input "1 NaN" "t1") =
      some ({ freshCash with
                balance := balanceAdd freshCash.balance 1 .nan,
                Chain := freshCash.Chain ++ [nanCandidate L] }, [nanCandidate L]) := by
    simp only [handleEvent, hblock, validate_nanCandidate]
    rfl
  exact ⟨fun k => rfl,
    { freshCash with
        balance := balanceAdd freshCash.balance 1 .nan,
        Chain := freshCash.Chain ++ [nanCandidate L] },
    by simp only [handleEvents, hstep], rfl, rfl, rfl⟩

/-- C5 on the library instance: the run of the theorem is a run of the
definitions on `demoLib`. -/
theorem C5_nan_submission_breaks_nonneg_witness :
    demoLib.Atoi "1" = some 1 ∧ demoLib.ParseFloat32 "NaN" = some .nan ∧
    ∃ cs1, handleEvents demoLib freshCash [.input "1 NaN" "t1"] = some cs1 ∧
      cs1.Chain = [GetGenesisBlock "t0", nanCandidate demoLib] ∧
      cs1.balance 1 = .nan ∧ F32.ge0 (cs1.balance 1) = false :=
  ⟨by decide, by decide,
    (C5_nan_submission_breaks_nonneg demoLib (by decide) (by decide)).2⟩

/-! ## The balance table and the chain -/

theorem foldl_balanceAdd_apply (k : Int) :
    ∀ (chain : List Block) (bal : Int → F32),
      (chain.foldl (fun bal blk => balanceAdd bal blk.CardId blk.Amount) bal) k =
        chain.foldl
          (fun acc blk => if blk.CardId = k then F32.add acc blk.Amount else acc) (bal k)
  | [], bal => rfl
  | blk :: chain, bal => by
    simp only [List.foldl_cons]
    rw [foldl_balanceAdd_apply k chain]
    by_cases hk : blk.CardId = k
    · simp [balanceAdd, hk]
    · have hk1 : ¬ k = blk.CardId := fun h => hk h.symm
      simp [balanceAdd, hk, hk1]

/-- One iteration of the event loop keeps the balance table equal to the fold
of the chain. -/
theorem handleEvent_fold (L : Lib) (cs cs1 : ChainSubscription) (ev : Event)
    (out : List Block) (hP : ∀ k, cs.balance k = sumAmounts cs.Chain k)
    (h : handleEvent L cs ev = some (cs1, out)) :
    ∀ k, cs1.balance k = sumAmounts cs1.Chain k := by
  intro k
  rcases handleEvent_cases L cs cs1 ev out h with h1 | ⟨b, _, h1⟩
  · rw [h1]; exact hP k
  · rw [h1]
    simp only [sumAmounts, List.foldl_append, List.foldl_cons, List.foldl_nil, balanceAdd]
    by_cases hk : b.CardId = k
    · have h2 := hP b.CardId
      simp only [sumAmounts] at h2
      subst hk
      simp [h2]
    · have hk1 : ¬ k = b.CardId := fun h => hk h.symm
      have h2 := hP k
      simp only [sumAmounts] at h2
      simp [hk, hk1, h2]

/-- C6: in every state reached from construction (empty balance table,
genesis-only chain), optionally through the join-time `ReadChain`, by a finite
sequence of iterations of the event loop, the stored balance of every account
equals the sum, in chain order, of `Amount` over the blocks of the current
chain with that `CardId`. -/
theorem C6_balance_is_fold_of_chain (L : Lib) (self nickName typePos now : String)
    (start cs : ChainSubscription) (evs : List Event)
    (hstart : start = newChainSubscription self nickName typePos now ∨
      ∃ msgs rest, ReadChain (newChainSubscription self nickName typePos now) msgs
        = .done (start, rest))
    (hrun : handleEvents L start evs = some cs) :
    ∀ accountId, cs.balance accountId = sumAmounts cs.Chain accountId := by
  refine handleEvents_induction L (fun cs => ∀ k, cs.balance k = sumAmounts cs.Chain k)
    (fun cs cs1 ev out hP h => handleEvent_fold L cs cs1 ev out hP h) evs start cs ?_ hrun
  intro k
  rcases hstart with h | ⟨msgs, rest, h⟩
  · rw [h]
    by_cases hk : (-1 : Int) = k
    · subst hk; rfl
    · simp [newChainSubscription, sumAmounts, GetGenesisBlock, hk]
  · obtain ⟨_, chainMsg, _, _, _, _, h5⟩ := readChain_done _ msgs rest start h
    rw [h5]
    simp only [sumAmounts]
    rw [foldl_balanceAdd_apply]
    rfl

/-- C6 on a concrete run: after the remote credit of 10 and the local top-up
of 5 on card 1, the stored balances are the fold of the three-block chain. -/
theorem C6_balance_is_fold_of_chain_witness :
    ∃ cs, handleEvents demoLib (newChainSubscription "QmSelf" "pos1" "cash" "t0") twoEvents
        = some cs ∧ cs.Chain.length = 3 ∧
      ∀ accountId, cs.balance accountId = sumAmounts cs.Chain accountId := by
  have h : (handleEvents demoLib (newChainSubscription "QmSelf" "pos1" "cash" "t0")
      twoEvents).map (fun cs => cs.Chain.length) = some 3 := by decide
  cases hrun : handleEvents demoLib (newChainSubscription "QmSelf" "pos1" "cash" "t0")
      twoEvents with
  | none => rw [hrun] at h; simp at h
  | some cs =>
    rw [hrun] at h
    exact ⟨cs, rfl, by simpa using h,
      C6_balance_is_fold_of_chain demoLib "QmSelf" "pos1" "cash" "t0" _ cs twoEvents
        (Or.inl rfl) hrun⟩

/-! ## Zero-amount submissions -/

/-- C7: a well-formed input line (two fields, a card id `strconv.Atoi` reads
and an amount `strconv.ParseFloat` reads) whose amount is zero never changes
the state: on a chain with a tip the iteration returns the state as it was
and hands nothing to `Publish`, whatever `ValidateBlockAddition` answers; on an
empty chain `GetLatestBlock` panics before anything is written. -/
theorem C7_zero_amount_submission_keeps_state (L : Lib) (cs : ChainSubscription)
    (line now s0 s1 : String) (cardId : Int) (amount : F32)
    (hsplit : Split line = [s0, s1]) (hAtoi : L.Atoi s0 = some cardId)
    (hParse : L.ParseFloat32 s1 = some amount) (hzero : F32.ne0 amount = false) :
    (cs.Chain ≠ [] → handleEvent L cs (.input line now) = some (cs, [])) ∧
    (cs.Chain = [] → handleEvent L cs (.input line now) = none) := by
  constructor
  · intro hne
    obtain ⟨tip, htip⟩ : ∃ tip, GetLatestBlock cs = some tip := by
      cases h : cs.Chain.getLast? with
      | none => exact absurd (List.getLast?_eq_none_iff.1 h) hne
      | some tip => exact ⟨tip, h⟩
    simp only [handleEvent, getBlockFromInputString, hsplit, hAtoi, hParse, htip]
    rcases validate_isSome L cs tip
      { Index := intAdd tip.Index 1, PrevHash := tip.Hash, Timestamp := now,
        CardId := cardId, Amount := amount,
        Hash := calculateBlockHash L
          { Index := intAdd tip.Index 1, PrevHash := tip.Hash, Timestamp := now,
            CardId := cardId, Amount := amount, Hash := "", Sender := "",
            SenderNick := "" },
        Sender := cs.self, SenderNick := cs.nickName } htip with hv | hv
    · simp only [hv, hzero]
      split_ifs <;> first | rfl | contradiction
    · simp only [hv]
      split_ifs <;> rfl
  · intro hempty
    have htip : GetLatestBlock cs = none := by simp [GetLatestBlock, hempty]
    simp only [handleEvent, getBlockFromInputString, hsplit, hAtoi, hParse, htip]

/-- C7 on a concrete run: the balance query `1 0` typed after the credit of
10 on card 1 is validated and leaves the two-block chain and the balances as
they were. -/
theorem C7_zero_amount_submission_keeps_state_witness :
    Split "1 0" = ["1", "0"] ∧ demoLib.Atoi "1" = some 1 ∧
    demoLib.ParseFloat32 "0" = some F32.zero ∧ F32.ne0 F32.zero = false ∧
    handleEvent demoLib
      { freshCash with Chain := freshCash.Chain ++ [creditTen demoLib],
                       balance := balanceAdd freshCash.balance 1 (F32.ofInt 10) }
      (.input "1 0" "t2") =
      some ({ freshCash with Chain := freshCash.Chain ++ [creditTen demoLib],
                             balance := balanceAdd freshCash.balance 1 (F32.ofInt 10) }, []) :=
  ⟨by decide, by decide, by decide, by decide,
    (C7_zero_amount_submission_keeps_state demoLib _ "1 0" "t2" "1" "0" 1 F32.zero
      (by decide) (by decide) (by decide) (by decide)).1 (by simp [freshCash])⟩

/-! ## Selection of the sync source -/

/-- The selection loop started from `init`: the result is `init` or an entry,
its value is at least that of `init` and of every entry, and it is an entry
as soon as some entry has a greater value than `init`. -/
theorem foldl_select_spec :
    ∀ (entries : List (String × Int)) (init : String × Int),
      let r := entries.foldl (fun acc kv => if kv.2 > acc.2 then (kv.1, kv.2) else acc) init
      (r = init ∨ r ∈ entries) ∧ init.2 ≤ r.2 ∧ (∀ p ∈ entries, p.2 ≤ r.2)
  | [], init => by simp
  | kv :: entries, init => by
    have ih := foldl_select_spec entries (if kv.2 > init.2 then (kv.1, kv.2) else init)
    simp only [List.foldl_cons]
    obtain ⟨h1, h2, h3⟩ := ih
    by_cases hk : kv.2 > init.2
    · simp only [hk, if_true] at h1 h2 h3 ⊢
      refine ⟨?_, by omega, ?_⟩
      · rcases h1 with h1 | h1
        · right; rw [h1]; exact List.mem_cons_self _ _
        · right; exact List.mem_cons_of_mem _ h1
      · intro p hp
        rcases List.mem_cons.1 hp with rfl | hp
        · exact h2
        · exact h3 p hp
    · simp only [hk, if_false] at h1 h2 h3 ⊢
      refine ⟨?_, h2, ?_⟩
      · rcases h1 with h1 | h1
        · left; exact h1
        · right; exact List.mem_cons_of_mem _ h1
      · intro p hp
        rcases List.mem_cons.1 hp with rfl | hp
        · omega
        · exact h3 p hp

/-- The selection loop on entries of which one is non-negative returns an
entry of greatest value. -/
theorem selectMax_spec (entries : List (String × Int)) (hpos : ∃ p ∈ entries, 0 ≤ p.2) :
    selectMax entries ∈ entries ∧ ∀ p ∈ entries, p.2 ≤ (selectMax entries).2 := by
  obtain ⟨h1, _, h3⟩ := foldl_select_spec entries ("", -1)
  refine ⟨?_, h3⟩
  rcases h1 with h1 | h1
  · exfalso
    obtain ⟨p, hp, hp0⟩ := hpos
    have := h3 p hp
    rw [h1] at this
    simp at this
    omega
  · exact h1

theorem mapSet_keys_nodup (m : PeerIndices) (k : String) (v : Int)
    (h : (m.map Prod.fst).Nodup) : ((mapSet m k v).map Prod.fst).Nodup := by
  unfold mapSet
  split_ifs with hk
  · have : (m.map (fun p => if p.1 = k then (k, v) else p)).map Prod.fst = m.map Prod.fst := by
      rw [List.map_map]
      apply List.map_congr_left
      intro p _
      by_cases hp : p.1 = k <;> simp [hp]
    rw [this]; exact h
  · rw [List.map_append]
    refine List.Nodup.append h (by simp) ?_
    simp only [List.map_cons, List.map_nil, List.disjoint_singleton]
    intro hmem
    apply hk
    obtain ⟨p, hp, hpk⟩ := List.mem_map.1 hmem
    exact List.any_eq_true.2 ⟨p, hp, by simp [hpk]⟩

/-- The collection loop keeps one entry per sender. -/
theorem collectIndices_keys_nodup (self : String) :
    ∀ (msgs : List (Option SpecialMessage)) (need : Nat) (m m1 : PeerIndices)
      (rest : List (Option SpecialMessage)),
      (m.map Prod.fst).Nodup → collectIndices self msgs need m = .done (m1, rest) →
        (m1.map Prod.fst).Nodup
  | msgs, 0, m, m1, rest, hm, h => by
    cases msgs <;> simp [collectIndices] at h <;> exact h.1 ▸ hm
  | [], _ + 1, m, m1, rest, _, h => by simp [collectIndices] at h
  | none :: msgs, need + 1, m, m1, rest, hm, h => by
    simp only [collectIndices] at h
    exact collectIndices_keys_nodup self msgs (need + 1) m m1 rest hm h
  | some im :: msgs, need + 1, m, m1, rest, hm, h => by
    simp only [collectIndices] at h
    split_ifs at h
    · exact collectIndices_keys_nodup self msgs need _ m1 rest
        (mapSet_keys_nodup m im.Sender im.Index hm) h
    · exact collectIndices_keys_nodup self msgs (need + 1) m m1 rest hm h

/-- C8 as stated fails: with one listed peer whose reply reports the index -5
the recorded set is non-empty, yet `ReadIndices` returns the length -1, which
is not the greatest recorded value, and the empty sender, which is not
recorded. -/
theorem C8_readIndices_negative_reply :
    collectIndices freshCash.self [some (indexReply "QmPeer" (-5))] 1 []
      = .done ([("QmPeer", -5)], []) ∧
    ReadIndices freshCash 1 [some (indexReply "QmPeer" (-5))] (fun m => m)
      = .done (("", -1), []) ∧
    (-1 : Int) ≠ -5 ∧ ¬ ∃ v, (("", v) : String × Int) ∈ [(("QmPeer", -5) : String × Int)] :=
  ⟨rfl, rfl, by decide, by simp⟩

/-- C8, amended: let `peerIndices` be the replies the first loop of
`ReadIndices` recorded on a freshly constructed subscription, and let `range`
visit the entries of a map in any order. If some recorded value is `>= 0`,
`ReadIndices` returns a sender and a length such that the sender is recorded
with that length (one entry per sender) and no recorded value is greater. If
nothing was recorded, it returns the empty sender and -1, and
`SubscribeToChain` publishes only its index request and returns the
genesis-only chain. -/
theorem C8_readIndices_selects_longest (self nickName typePos now : String)
    (numPeers : Nat) (msgs rest : List (Option SpecialMessage))
    (range : PeerIndices → List (String × Int)) (peerIndices : PeerIndices)
    (hrange : ∀ m, (range m).Perm m)
    (hcollect : collectIndices self msgs numPeers [] = .done (peerIndices, rest)) :
    ((∃ p ∈ peerIndices, 0 ≤ p.2) →
      ∃ sender len,
        ReadIndices (newChainSubscription self nickName typePos now) numPeers msgs range
          = .done ((sender, len), rest) ∧
        (sender, len) ∈ peerIndices ∧ (peerIndices.map Prod.fst).Nodup ∧
        ∀ p ∈ peerIndices, p.2 ≤ len) ∧
    (peerIndices = [] →
      ReadIndices (newChainSubscription self nickName typePos now) numPeers msgs range
        = .done (("", -1), rest) ∧
      SubscribeToChain self nickName typePos now numPeers msgs range
        = .done (newChainSubscription self nickName typePos now,
            [requestIndicesMsg (newChainSubscription self nickName typePos now) now]) ∧
      (newChainSubscription self nickName typePos now).Chain = [GetGenesisBlock now]) := by
  have hread : ReadIndices (newChainSubscription self nickName typePos now) numPeers msgs range
      = .done (selectMax (range peerIndices), rest) := by
    simp only [ReadIndices, newChainSubscription, hcollect]
  constructor
  · intro hpos
    have hpos1 : ∃ p ∈ range peerIndices, 0 ≤ p.2 := by
      obtain ⟨p, hp, hp0⟩ := hpos
      exact ⟨p, (hrange peerIndices).mem_iff.2 hp, hp0⟩
    obtain ⟨h1, h2⟩ := selectMax_spec (range peerIndices) hpos1
    refine ⟨(selectMax (range peerIndices)).1, (selectMax (range peerIndices)).2, hread,
      (hrange peerIndices).mem_iff.1 h1,
      collectIndices_keys_nodup self msgs numPeers [] peerIndices rest (by simp) hcollect, ?_⟩
    intro p hp
    exact h2 p ((hrange peerIndices).mem_iff.2 hp)
  · intro hempty
    have hnil : range peerIndices = [] := by
      have := hrange peerIndices
      rw [hempty] at this ⊢
      exact List.Perm.eq_nil this
    have hread1 : ReadIndices (newChainSubscription self nickName typePos now) numPeers msgs
        range = .done (("", -1), rest) := by
      rw [hread, hnil]; rfl
    refine ⟨hread1, ?_, rfl⟩
    simp only [SubscribeToChain, hread1]
    rfl

/-- C8, amended, on a concrete join: with two listed peers, `QmA` reporting
the tip index 0 and `QmB` reporting 4, the sender selected is `QmB` with
length 4 (here with the map visited in reverse order of insertion). -/
theorem C8_readIndices_selects_longest_witness :
    ∃ sender len,
      ReadIndices (newChainSubscription "QmSelf" "pos1" "cash" "t0") 2
          [some (indexReply "QmA" 0), none, some (indexReply "QmB" 4)] List.reverse
        = .done ((sender, len), []) ∧
      (sender, len) ∈ [(("QmA", 0) : String × Int), ("QmB", 4)] ∧
      ([(("QmA", 0) : String × Int), ("QmB", 4)].map Prod.fst).Nodup ∧
      ∀ p ∈ [(("QmA", 0) : String × Int), ("QmB", 4)], p.2 ≤ len :=
  (C8_readIndices_selects_longest "QmSelf" "pos1" "cash" "t0" 2
      [some (indexReply "QmA" 0), none, some (indexReply "QmB" 4)] [] List.reverse
      [("QmA", 0), ("QmB", 4)] (fun m => List.reverse_perm m) rfl).1
    ⟨("QmB", 4), by simp, by decide⟩

/-! ## The hashed record -/

theorem digitChar_toNat (d : Nat) (hd : d < 10) : (digitChar d).toNat - 48 = d := by
  interval_cases d <;> rfl

theorem digitChar_ne_minus (d : Nat) (hd : d < 10) : digitChar d ≠ '-' := by
  interval_cases d <;> decide

theorem foldl_natStrAux :
    ∀ (fuel n : Nat) (acc : List Char), n < fuel →
      (natStrAux fuel n acc).foldl (fun a c => a * 10 + (c.toNat - 48)) 0 =
        acc.foldl (fun a c => a * 10 + (c.toNat - 48)) n
  | 0, n, acc, h => by omega
  | fuel + 1, n, acc, h => by
    unfold natStrAux
    split_ifs with hn
    · simp [digitChar_toNat n hn]
    · rw [foldl_natStrAux fuel (n / 10) _ (by omega)]
      simp only [List.foldl_cons]
      rw [digitChar_toNat (n % 10) (Nat.mod_lt _ (by decide)), Nat.div_add_mod']

/-- Reading back the digits of a number gives the number. -/
theorem decValue_natStr (n : Nat) : decValue (natStr n) = n := by
  unfold decValue natStr
  rw [foldl_natStrAux (n + 1) n [] (by omega)]
  rfl

theorem natStr_injective : Function.Injective natStr := fun a b h => by
  rw [← decValue_natStr a, ← decValue_natStr b, h]

theorem natStrAux_head :
    ∀ (fuel n : Nat) (acc : List Char), n < fuel →
      ∃ d, d < 10 ∧ ∃ t, natStrAux fuel n acc = digitChar d :: t
  | 0, n, acc, h => by omega
  | fuel + 1, n, acc, h => by
    unfold natStrAux
    split_ifs with hn
    · exact ⟨n, hn, acc, rfl⟩
    · exact natStrAux_head fuel (n / 10) _ (by omega)

theorem natStr_ne_minus (n : Nat) (t : List Char) : natStr n ≠ '-' :: t := by
  obtain ⟨d, hd, t1, h⟩ := natStrAux_head (n + 1) n [] (by omega)
  unfold natStr
  rw [h]
  intro hc
  exact digitChar_ne_minus d hd (List.cons.inj hc).1

/-- `strconv.Itoa` renders different integers differently. -/
theorem Itoa_injective : Function.Injective Itoa := by
  intro a b h
  unfold Itoa at h
  split_ifs at h with ha hb hb
  · have h0 : '-' :: natStr a.natAbs = '-' :: natStr b.natAbs := congrArg String.data h
    have h1 := natStr_injective (List.cons.inj h0).2
    omega
  · have h0 : '-' :: natStr a.natAbs = natStr b.natAbs := congrArg String.data h
    exact absurd h0.symm (natStr_ne_minus _ _)
  · have h0 : natStr a.natAbs = '-' :: natStr b.natAbs := congrArg String.data h
    exact absurd h0 (natStr_ne_minus _ _)
  · have h0 : natStr a.natAbs = natStr b.natAbs := congrArg String.data h
    have h1 := natStr_injective h0
    omega

theorem append_left_cancel (a x y : String) (h : a ++ x = a ++ y) : x = y := by
  have h1 := congrArg String.data h
  simp only [String.data_append] at h1
  exact String.ext (List.append_cancel_left h1)

theorem append_right_cancel (x y a : String) (h : x ++ a = y ++ a) : x = y := by
  have h1 := congrArg String.data h
  simp only [String.data_append] at h1
  exact String.ext (List.append_cancel_right h1)

/-- C9 as stated fails: the amounts `1` and `1 + 2^-23` are different
`float32` values, both rendered `1.000000` by `%f`, so two blocks that differ
in `Amount` only have the same digest, whatever the digest function. -/
theorem C9_amount_change_keeps_digest :
    amountOne.Amount ≠ amountOneNext.Amount ∧
    amountOne.Index = amountOneNext.Index ∧ amountOne.Timestamp = amountOneNext.Timestamp ∧
    amountOne.CardId = amountOneNext.CardId ∧ amountOne.PrevHash = amountOneNext.PrevHash ∧
    fmtF amountOne.Amount = "1.000000" ∧ fmtF amountOneNext.Amount = "1.000000" ∧
    ∀ L : Lib, calculateBlockHash L amountOne = calculateBlockHash L amountOneNext := by
  refine ⟨by decide, rfl, rfl, rfl, rfl, by decide, by decide, fun L => ?_⟩
  have h : blockRecord amountOne = blockRecord amountOneNext := by decide
  simp only [calculateBlockHash, h]

/-- A digest function with finitely many values, as SHA-256 has, takes the
same value on two blocks that differ in `Timestamp` only: sensitivity of the
digest to a field can only be stated for records on which the digest function
has no collision. -/
theorem timestamp_collision_of_finite_range (L : Lib)
    (hfin : (Set.range L.sha256Hex).Finite) (b : Block) :
    ∃ t1 t2 : String, t1 ≠ t2 ∧
      calculateBlockHash L { b with Timestamp := t1 } =
        calculateBlockHash L { b with Timestamp := t2 } := by
  haveI : Finite (Set.range L.sha256Hex) := hfin.to_subtype
  obtain ⟨t1, t2, hne, heq⟩ := Finite.exists_ne_map_eq_of_infinite
    (fun t : String => (⟨calculateBlockHash L { b with Timestamp := t }, ⟨_, rfl⟩⟩ :
      Set.range L.sha256Hex))
  exact ⟨t1, t2, hne, congrArg Subtype.val heq⟩

/-- The same for `PrevHash`: a digest function with finitely many values
takes the same value on two blocks that differ in `PrevHash` only. -/
theorem prevHash_collision_of_finite_range (L : Lib)
    (hfin : (Set.range L.sha256Hex).Finite) (b : Block) :
    ∃ p1 p2 : String, p1 ≠ p2 ∧
      calculateBlockHash L { b with PrevHash := p1 } =
        calculateBlockHash L { b with PrevHash := p2 } := by
  haveI : Finite (Set.range L.sha256Hex) := hfin.to_subtype
  obtain ⟨p1, p2, hne, heq⟩ := Finite.exists_ne_map_eq_of_infinite
    (fun p : String => (⟨calculateBlockHash L { b with PrevHash := p }, ⟨_, rfl⟩⟩ :
      Set.range L.sha256Hex))
  exact ⟨p1, p2, hne, congrArg Subtype.val heq⟩

/-- Different records have different digests on any set of records on which
the digest function has no collision. -/
theorem digest_ne_of_record_ne (L : Lib) (b c : Block) (S : Set String)
    (hS : Set.InjOn L.sha256Hex S) (hb : blockRecord b ∈ S) (hc : blockRecord c ∈ S)
    (hne : blockRecord b ≠ blockRecord c) :
    calculateBlockHash L b ≠ calculateBlockHash L c :=
  fun h => hne (hS hb hc h)

/-- C9, amended: the digest is a function of `Index`, `Timestamp`, `CardId`,
`Amount` and `PrevHash` alone. Changing exactly one of `Index`, `Timestamp`,
`CardId` or `PrevHash` changes the hashed record, and with it the digest on
every set `S` of records that holds the two records and on which SHA-256 has
no collision. Changing `Amount` alone leaves the digest unchanged when the
six-decimal `%f` rendering of the amount is unchanged, and otherwise changes
the hashed record, and the digest on every such `S`. -/
theorem C9_digest_sensitivity (L : Lib) (b c : Block) :
    (b.Index = c.Index → b.Timestamp = c.Timestamp → b.CardId = c.CardId →
      b.Amount = c.Amount → b.PrevHash = c.PrevHash →
        calculateBlockHash L b = calculateBlockHash L c) ∧
    (b.Index ≠ c.Index → b.Timestamp = c.Timestamp → b.CardId = c.CardId →
      b.Amount = c.Amount → b.PrevHash = c.PrevHash →
        blockRecord b ≠ blockRecord c ∧
        ∀ S : Set String, Set.InjOn L.sha256Hex S → blockRecord b ∈ S → blockRecord c ∈ S →
          calculateBlockHash L b ≠ calculateBlockHash L c) ∧
    (b.Index = c.Index → b.Timestamp ≠ c.Timestamp → b.CardId = c.CardId →
      b.Amount = c.Amount → b.PrevHash = c.PrevHash →
        blockRecord b ≠ blockRecord c ∧
        ∀ S : Set String, Set.InjOn L.sha256Hex S → blockRecord b ∈ S → blockRecord c ∈ S →
          calculateBlockHash L b ≠ calculateBlockHash L c) ∧
    (b.Index = c.Index → b.Timestamp = c.Timestamp → b.CardId ≠ c.CardId →
      b.Amount = c.Amount → b.PrevHash = c.PrevHash →
        blockRecord b ≠ blockRecord c ∧
        ∀ S : Set String, Set.InjOn L.sha256Hex S → blockRecord b ∈ S → blockRecord c ∈ S →
          calculateBlockHash L b ≠ calculateBlockHash L c) ∧
    (b.Index = c.Index → b.Timestamp = c.Timestamp → b.CardId = c.CardId →
      b.Amount = c.Amount → b.PrevHash ≠ c.PrevHash →
        blockRecord b ≠ blockRecord c ∧
        ∀ S : Set String, Set.InjOn L.sha256Hex S → blockRecord b ∈ S → blockRecord c ∈ S →
          calculateBlockHash L b ≠ calculateBlockHash L c) ∧
    (b.Index = c.Index → b.Timestamp = c.Timestamp → b.CardId = c.CardId →
      b.PrevHash = c.PrevHash →
        (fmtF b.Amount = fmtF c.Amount → calculateBlockHash L b = calculateBlockHash L c) ∧
        (fmtF b.Amount ≠ fmtF c.Amount →
          blockRecord b ≠ blockRecord c ∧
          ∀ S : Set String, Set.InjOn L.sha256Hex S → blockRecord b ∈ S →
            blockRecord c ∈ S → calculateBlockHash L b ≠ calculateBlockHash L c)) := by
  have hdig : blockRecord b ≠ blockRecord c →
      blockRecord b ≠ blockRecord c ∧
      ∀ S : Set String, Set.InjOn L.sha256Hex S → blockRecord b ∈ S → blockRecord c ∈ S →
        calculateBlockHash L b ≠ calculateBlockHash L c :=
    fun hne => ⟨hne, fun S hS hb hc => digest_ne_of_record_ne L b c S hS hb hc hne⟩
  refine ⟨?_, fun h1 h2 h3 h4 h5 => hdig ?_, fun h1 h2 h3 h4 h5 => hdig ?_,
    fun h1 h2 h3 h4 h5 => hdig ?_, fun h1 h2 h3 h4 h5 => hdig ?_,
    fun h1 h2 h3 h5 => ⟨?_, fun h4 => hdig ?_⟩⟩
  · intro h1 h2 h3 h4 h5
    simp only [calculateBlockHash, blockRecord, h1, h2, h3, h4, h5]
  · intro h
    simp only [blockRecord, h2, h3, h4, h5] at h
    exact h1 (Itoa_injective (append_right_cancel _ _ _ (append_right_cancel _ _ _
      (append_right_cancel _ _ _ (append_right_cancel _ _ _ h)))))
  · intro h
    simp only [blockRecord, h1, h3, h4, h5] at h
    exact h2 (append_left_cancel _ _ _ (append_right_cancel _ _ _
      (append_right_cancel _ _ _ (append_right_cancel _ _ _ h))))
  · intro h
    simp only [blockRecord, h1, h2, h4, h5] at h
    exact h3 (Itoa_injective (append_left_cancel _ _ _ (append_right_cancel _ _ _
      (append_right_cancel _ _ _ h))))
  · intro h
    simp only [blockRecord, h1, h2, h3, h4] at h
    exact h5 (append_left_cancel _ _ _ h)
  · intro h4
    simp only [calculateBlockHash, blockRecord, h1, h2, h3, h4, h5]
  · intro h
    simp only [blockRecord, h1, h2, h3, h5] at h
    exact h4 (append_left_cancel _ _ _ (append_right_cancel _ _ _ h))

/-- C9, amended, on concrete blocks: changing the index of `amountOne` from 1
to 2 changes the hashed record, and the digest for a digest function without
collision on the two records (here the stand-in of `demoLib`). -/
theorem C9_digest_sensitivity_witness :
    blockRecord amountOne ≠ blockRecord { amountOne with Index := 2 } ∧
    calculateBlockHash demoLib amountOne ≠
      calculateBlockHash demoLib { amountOne with Index := 2 } :=
  have h := (C9_digest_sensitivity demoLib amountOne { amountOne with Index := 2 }).2.1
    (by decide) rfl rfl rfl rfl
  ⟨h.1, h.2 Set.univ (fun _ _ _ _ e => e) trivial trivial⟩

/-! ## Answering an index query -/

/-- C10: for a message received from another peer that is not taken as a
block (it does not decode as a `Block`, or decodes with an empty `PrevHash`)
and decodes as a `SpecialMessage` of type 1, one iteration of `readBlocks` on
a chain with last block `latest` publishes exactly one message and does
nothing else: a type-3 message whose `Receiver` is the `Sender` of the
request, whose `Sender` is the local peer id and whose `Index` is
`latest.Index`; the subscription, chain and balance table included, is
unchanged. -/
theorem C10_index_request_answered (cs : ChainSubscription) (msg : Message) (now : String)
    (specialMsg : SpecialMessage) (latest : Block)
    (hfrom : msg.ReceivedFrom ≠ cs.self)
    (hblock : msg.asBlock = none ∨ ∃ block, msg.asBlock = some block ∧ block.PrevHash = "")
    (hspecial : msg.asSpecial = some specialMsg) (htype : specialMsg.Typ = 1)
    (hlatest : GetLatestBlock cs = some latest) :
    ∃ reply : SpecialMessage,
      readBlocks cs msg now = some (cs, [.publish reply]) ∧
      reply.Typ = 3 ∧ reply.Receiver = specialMsg.Sender ∧ reply.Sender = cs.self ∧
      reply.Index = latest.Index := by
  have hsp : readBlocks.readSpecial cs msg now =
      some (cs, [.publish (indexReturnMsg cs specialMsg now latest)]) := by
    simp [readBlocks.readSpecial, hspecial, htype, hlatest]
  refine ⟨indexReturnMsg cs specialMsg now latest, ?_, rfl, rfl, rfl, rfl⟩
  rcases hblock with hb | ⟨block, hb, hprev⟩
  · simp only [readBlocks, hfrom, if_false, hb, hsp]
  · simp only [readBlocks, hfrom, if_false, hb, hprev, ne_eq, not_true_eq_false, hsp]

/-- C10 on a concrete message: the index request of `QmX` reaches a peer
whose chain is the genesis block followed by `creditTen`, and the reply
carries the index 1 of that last block. -/
theorem C10_index_request_answered_witness :
    ∃ reply : SpecialMessage,
      readBlocks { freshCash with Chain := freshCash.Chain ++ [creditTen demoLib] }
        indexRequestFromX "t6" =
        some ({ freshCash with Chain := freshCash.Chain ++ [creditTen demoLib] },
          [.publish reply]) ∧
      reply.Typ = 3 ∧ reply.Receiver = "QmX" ∧ reply.Sender = "QmSelf" ∧ reply.Index = 1 :=
  C10_index_request_answered { freshCash with Chain := freshCash.Chain ++ [creditTen demoLib] }
    indexRequestFromX "t6"
    { Typ := 1, Timestamp := "t5", Sender := "QmX", SenderNick := "posX",
      Receiver := "", Index := 0, Blockchain := [] }
    (creditTen demoLib) (by decide) (Or.inr ⟨_, rfl, rfl⟩) rfl rfl rfl

/-! ## What the collection loop records -/

theorem mapGet_map_replace (k s : String) (v : Int) :
    ∀ m : PeerIndices,
      mapGet (m.map (fun p => if p.1 = k then (k, v) else p)) s =
        if k = s then (if m.any (fun p => p.1 == k) then some v else none) else mapGet m s
  | [] => by simp [mapGet]
  | p :: m => by
    have ih := mapGet_map_replace k s v m
    simp only [List.map_cons, mapGet, List.any_cons, beq_iff_eq, Bool.or_eq_true,
      decide_eq_true_eq]
    rw [ih]
    by_cases hp : p.1 = k <;> by_cases hk : k = s
    · simp [hp, hk]
    · have hps : ¬ k = s := hk
      simp [hp, hk]
    · have hps : ¬ p.1 = s := fun h => hp (h.trans hk.symm)
      simp only [hp, hk, hps, if_false, if_true, false_or]
    · simp [hp, hk]

theorem mapGet_append_singleton (k s : String) (v : Int) :
    ∀ m : PeerIndices,
      mapGet (m ++ [(k, v)]) s =
        match mapGet m s with
        | some x => some x
        | none => if k = s then some v else none
  | [] => by simp [mapGet]
  | p :: m => by
    have ih := mapGet_append_singleton k s v m
    simp only [List.cons_append, mapGet]
    by_cases hp : p.1 = s
    · simp [hp]
    · simp only [hp, if_false]
      exact ih

theorem mapGet_eq_none (k : String) :
    ∀ m : PeerIndices, ¬ (m.any (fun p => p.1 == k) = true) → mapGet m k = none
  | [], _ => rfl
  | p :: m, h => by
    simp only [List.any_cons, beq_iff_eq, Bool.or_eq_true, decide_eq_true_eq, not_or] at h
    simp only [mapGet, h.1, if_false]
    exact mapGet_eq_none k m h.2

/-- Reading the map after `m[k] = v`. -/
theorem mapGet_mapSet (m : PeerIndices) (k s : String) (v : Int) :
    mapGet (mapSet m k v) s = if k = s then some v else mapGet m s := by
  unfold mapSet
  split_ifs with hany hks hks
  · rw [mapGet_map_replace, if_pos hks, if_pos hany]
  · rw [mapGet_map_replace, if_neg hks]
  · subst hks
    rw [mapGet_append_singleton, mapGet_eq_none k m hany]
    simp
  · rw [mapGet_append_singleton]
    cases mapGet m s <;> simp [hks]

/-- The collection loop, started on the map `m0`, reads a prefix of the
messages with exactly `need` counted replies, and records for every sender
the index of its last counted reply (or what `m0` held). -/
theorem collectIndices_records (self sender : String) :
    ∀ (msgs : List (Option SpecialMessage)) (need : Nat) (m0 m : PeerIndices)
      (rest : List (Option SpecialMessage)),
      collectIndices self msgs need m0 = .done (m, rest) →
        ∃ read, msgs = read ++ rest ∧
          (read.filterMap (countedReply self)).length = need ∧
          mapGet m sender =
            (read.filterMap (countedReply self)).foldl
              (fun acc r => if r.Sender = sender then some r.Index else acc) (mapGet m0 sender)
  | msgs, 0, m0, m, rest, h => by
    have h1 : m0 = m ∧ msgs = rest := by
      cases msgs <;> simpa [collectIndices] using h
    exact ⟨[], by simp [h1.2], rfl, by simp [h1.1]⟩
  | [], _ + 1, m0, m, rest, h => by simp [collectIndices] at h
  | none :: msgs, need + 1, m0, m, rest, h => by
    simp only [collectIndices] at h
    obtain ⟨read, h1, h2, h3⟩ := collectIndices_records self sender msgs (need + 1) m0 m rest h
    exact ⟨none :: read, by simp [h1], by simpa [countedReply] using h2,
      by simpa [countedReply] using h3⟩
  | some im :: msgs, need + 1, m0, m, rest, h => by
    simp only [collectIndices] at h
    by_cases hc : im.Typ = 3 ∧ im.Receiver = self
    · rw [if_pos hc] at h
      obtain ⟨read, h1, h2, h3⟩ :=
        collectIndices_records self sender msgs need (mapSet m0 im.Sender im.Index) m rest h
      refine ⟨some im :: read, by simp [h1], ?_, ?_⟩
      · simp only [List.filterMap_cons, countedReply, hc, and_self, if_true, List.length_cons, h2]
      · rw [h3, mapGet_mapSet]
        simp only [List.filterMap_cons, countedReply, hc, and_self, if_true, List.foldl_cons]
    · rw [if_neg hc] at h
      obtain ⟨read, h1, h2, h3⟩ := collectIndices_records self sender msgs (need + 1) m0 m rest h
      refine ⟨some im :: read, by simp [h1], ?_, ?_⟩
      · simpa only [List.filterMap_cons, countedReply, hc, if_false] using h2
      · simpa only [List.filterMap_cons, countedReply, hc, if_false] using h3

/-- Overwriting on every reply of `sender` leaves the index of the last one. -/
theorem foldl_overwrite_eq_last (sender : String) (init : Option Int) :
    ∀ counted : List SpecialMessage,
      counted.foldl (fun acc r => if r.Sender = sender then some r.Index else acc) init =
        match (counted.filter (fun r => r.Sender = sender)).getLast? with
        | some r => some r.Index
        | none => init := by
  intro counted
  induction counted using List.reverseRecOn with
  | nil => rfl
  | append_singleton l r ih =>
    rw [List.foldl_append, List.filter_append]
    by_cases hr : r.Sender = sender
    · simp [hr]
    · simp [hr, ih]

/-- C11 as stated fails: with two replies awaited, `QmB` reports the index 5
and then the index 3, both counted; the value recorded for `QmB` is 3, not the
highest value 5 it reported. -/
theorem C11_later_reply_overwrites_higher :
    collectIndices "QmSelf" [some (indexReply "QmB" 5), some (indexReply "QmB" 3)] 2 []
      = .done ([("QmB", 3)], []) ∧
    [some (indexReply "QmB" 5), some (indexReply "QmB" 3)].filterMap (countedReply "QmSelf")
      = [indexReply "QmB" 5, indexReply "QmB" 3] ∧
    mapGet [("QmB", 3)] "QmB" = some 3 ∧ (3 : Int) < (indexReply "QmB" 5).Index :=
  ⟨rfl, by decide, by decide, by decide⟩

/-- C11, amended: when the first loop of `ReadIndices` finishes, it has read
a prefix of the inbound messages that holds exactly `numPeers` counted replies
(type 3, addressed to self), and the chain length recorded for a sender is
the value of the last counted reply of that sender; nothing is recorded for a
sender without a counted reply. -/
theorem C11_recorded_is_last_reply (self : String) (msgs rest : List (Option SpecialMessage))
    (numPeers : Nat) (peerIndices : PeerIndices)
    (h : collectIndices self msgs numPeers [] = .done (peerIndices, rest)) :
    ∃ read, msgs = read ++ rest ∧
      (read.filterMap (countedReply self)).length = numPeers ∧
      ∀ sender,
        mapGet peerIndices sender =
          (((read.filterMap (countedReply self)).filter
            (fun r => r.Sender = sender)).getLast?).map (fun r => r.Index) := by
  obtain ⟨read, h1, h2, _⟩ := collectIndices_records self "" msgs numPeers [] peerIndices rest h
  have hread : ∀ read1, msgs = read1 ++ rest → read1 = read := by
    intro read1 h3
    exact List.append_cancel_right (h3.symm.trans h1)
  refine ⟨read, h1, h2, ?_⟩
  intro sender
  obtain ⟨read1, h3, _, h5⟩ :=
    collectIndices_records self sender msgs numPeers [] peerIndices rest h
  rw [hread read1 h3] at h5
  rw [h5, foldl_overwrite_eq_last]
  cases ((read.filterMap (countedReply self)).filter (fun r => r.Sender = sender)).getLast? <;>
    rfl

/-- C11, amended, on a concrete collection: `QmA` reports 2, `QmB` reports 5
and then 3, with three replies awaited; the values recorded are 2 for `QmA`
and 3 for `QmB`. -/
theorem C11_recorded_is_last_reply_witness :
    ∃ read, [some (indexReply "QmA" 2), some (indexReply "QmB" 5), none,
        some (indexReply "QmB" 3)] = read ++ [] ∧
      (read.filterMap (countedReply "QmSelf")).length = 3 ∧
      ∀ sender,
        mapGet [("QmA", 2), ("QmB", 3)] sender =
          (((read.filterMap (countedReply "QmSelf")).filter
            (fun r => r.Sender = sender)).getLast?).map (fun r => r.Index) :=
  C11_recorded_is_last_reply "QmSelf"
    [some (indexReply "QmA" 2), some (indexReply "QmB" 5), none, some (indexReply "QmB" 3)] []
    3 [("QmA", 2), ("QmB", 3)] rfl

/-! ## Locally constructed candidates -/

/-- On a chain with tip `tip`, a well-formed line gives a block that links to
the tip and carries its own hash, and `ValidateBlockAddition` on the same
state accepts it exactly when the card id is at least 1 and the new balance
does not compare `< 0`. -/
theorem getBlockFromInputString_links (L : Lib) (cs : ChainSubscription)
    (line now s0 s1 : String) (cardId : Int) (amount : F32) (tip : Block)
    (hsplit : Split line = [s0, s1]) (hAtoi : L.Atoi s0 = some cardId)
    (hParse : L.ParseFloat32 s1 = some amount) (htip : GetLatestBlock cs = some tip) :
    ∃ block, getBlockFromInputString L line now cs = .ok block ∧
      block.Index = intAdd tip.Index 1 ∧ block.PrevHash = tip.Hash ∧
      block.Hash = calculateBlockHash L block ∧
      block.CardId = cardId ∧ block.Amount = amount ∧
      (ValidateBlockAddition L cs block = some true ↔
        1 ≤ cardId ∧ F32.lt0 (F32.add (cs.balance cardId) amount) = false) := by
  refine ⟨{ Index := intAdd tip.Index 1, PrevHash := tip.Hash, Timestamp := now,
            CardId := cardId, Amount := amount,
            Hash := calculateBlockHash L
              { Index := intAdd tip.Index 1, PrevHash := tip.Hash, Timestamp := now,
                CardId := cardId, Amount := amount, Hash := "", Sender := "",
                SenderNick := "" },
            Sender := cs.self, SenderNick := cs.nickName },
    by simp only [getBlockFromInputString, hsplit, hAtoi, hParse, htip],
    rfl, rfl, rfl, rfl, rfl, ?_⟩
  rw [validate_eq_true_iff L cs tip _ htip]
  constructor
  · rintro ⟨_, _, _, h4, h5⟩
    exact ⟨h5, h4⟩
  · rintro ⟨h5, h4⟩
    exact ⟨rfl, rfl, rfl, h4, h5⟩

/-- Away from a NaN sum the acceptance condition of a locally constructed
candidate is `cardId >= 1` and `balance[cardId] + amount >= 0`. -/
theorem getBlockFromInputString_accepted_iff_ge0 (L : Lib) (cs : ChainSubscription)
    (line now s0 s1 : String) (cardId : Int) (amount : F32) (tip : Block)
    (hsplit : Split line = [s0, s1]) (hAtoi : L.Atoi s0 = some cardId)
    (hParse : L.ParseFloat32 s1 = some amount) (htip : GetLatestBlock cs = some tip)
    (hnan : F32.add (cs.balance cardId) amount ≠ .nan) :
    ∃ block, getBlockFromInputString L line now cs = .ok block ∧
      (ValidateBlockAddition L cs block = some true ↔
        1 ≤ cardId ∧ F32.ge0 (F32.add (cs.balance cardId) amount) = true) := by
  obtain ⟨block, h1, _, _, _, _, _, h7⟩ :=
    getBlockFromInputString_links L cs line now s0 s1 cardId amount tip hsplit hAtoi hParse htip
  exact ⟨block, h1, by rw [h7, ge0_iff_not_lt0 _ hnan]⟩

/-- C12, at the input where the code departs from it: on a fresh terminal the
line `1 NaN`, which `strconv` reads as card 1 and a NaN amount, gives a block
that links to the genesis tip and carries its own hash, and
`ValidateBlockAddition` on the unchanged state accepts it, although
`cardId >= 1 and balance[cardId] + amount >= 0` is false there. -/
theorem C12_nan_line_candidate_accepted (L : Lib)
    (hAtoi : L.Atoi "1" = some 1) (hParse : L.ParseFloat32 "NaN" = some .nan) :
    ∃ block, getBlockFromInputString L "1 NaN" "t1" freshCash = .ok block ∧
      block.Index = intAdd (GetGenesisBlock "t0").Index 1 ∧
      block.PrevHash = (GetGenesisBlock "t0").Hash ∧
      block.Hash = calculateBlockHash L block ∧
      block.CardId = 1 ∧ block.Amount = .nan ∧
      ValidateBlockAddition L freshCash block = some true ∧
      ¬ ((1 : Int) ≤ 1 ∧ F32.ge0 (F32.add (freshCash.balance 1) .nan) = true) := by
  obtain ⟨block, h1, h2, h3, h4, h5, h6, h7⟩ :=
    getBlockFromInputString_links L freshCash "1 NaN" "t1" "1" "NaN" 1 .nan
      (GetGenesisBlock "t0") (by decide) hAtoi hParse getLatestBlock_freshCash
  exact ⟨block, h1, h2, h3, h4, h5, h6, h7.2 ⟨by decide, rfl⟩, by decide⟩

/-- C12 on the library instance: the run of the theorem is a run of the
definitions on `demoLib`. -/
theorem C12_nan_line_candidate_accepted_witness :
    demoLib.Atoi "1" = some 1 ∧ demoLib.ParseFloat32 "NaN" = some .nan ∧
    ∃ block, getBlockFromInputString demoLib "1 NaN" "t1" freshCash = .ok block ∧
      block.CardId = 1 ∧ block.Amount = .nan ∧
      ValidateBlockAddition demoLib freshCash block = some true :=
  ⟨by decide, by decide,
    (C12_nan_line_candidate_accepted demoLib (by decide) (by decide)).imp
      fun _ h => ⟨h.1, h.2.2.2.2.1, h.2.2.2.2.2.1, h.2.2.2.2.2.2.1⟩⟩

/-! ## Exact sums in `float32` -/

theorem bitLenAux_zero (fuel : Nat) : F32.bitLenAux fuel 0 = 0 := by
  cases fuel <;> simp [F32.bitLenAux]

theorem bitLenAux_spec :
    ∀ (fuel n : Nat), n ≤ fuel → 0 < n →
      n < 2 ^ F32.bitLenAux fuel n ∧ 2 ^ F32.bitLenAux fuel n ≤ 2 * n
  | 0, n, h, hn => by omega
  | fuel + 1, n, h, hn => by
    have hn0 : n ≠ 0 := by omega
    simp only [F32.bitLenAux, hn0, if_false]
    by_cases h2 : n / 2 = 0
    · have h1 : n = 1 := by omega
      subst h1
      simp [bitLenAux_zero]
    · obtain ⟨ih1, ih2⟩ := bitLenAux_spec fuel (n / 2) (by omega) (by omega)
      rw [pow_succ]
      constructor <;> omega

/-- The number of binary digits of a positive number brackets it between two
powers of two. -/
theorem bitLen_spec (n : Nat) (hn : 0 < n) :
    n < 2 ^ F32.bitLen n ∧ 2 ^ F32.bitLen n ≤ 2 * n :=
  bitLenAux_spec n n (le_refl n) hn

theorem pow_le_of_lt_mul_pow (a b m k : Nat) (hm : m < 2 ^ a) (hk : k ≤ b) :
    m * 2 ^ k < 2 ^ (a + b) := by
  calc m * 2 ^ k < 2 ^ a * 2 ^ k := Nat.mul_lt_mul_of_pos_right hm (by positivity)
    _ = 2 ^ (a + k) := (pow_add 2 a k).symm
    _ ≤ 2 ^ (a + b) := Nat.pow_le_pow_right (by decide) (by omega)

/-- Rounding a magnitude that is a binary32 value returns that value. -/
theorem round_exact (neg : Bool) (n E : Nat) (hn : 0 < n)
    (hrep : ∃ m k : Nat, m < 2 ^ 24 ∧ k ≤ 253 ∧ n * 2 ^ E = m * 2 ^ k) :
    ∃ m1 E1 : Nat, F32.round neg n ((E : Int) - 149) = .fin neg m1 ((E1 : Int) - 149) ∧
      m1 < 2 ^ 24 ∧ E1 ≤ 253 ∧ m1 * 2 ^ E1 = n * 2 ^ E := by
  obtain ⟨m, k, hm, hk, hmk⟩ := hrep
  obtain ⟨hlt, hge⟩ := bitLen_spec n hn
  have hn0 : n ≠ 0 := by omega
  have hbig : n * 2 ^ E < 2 ^ (24 + 253) := hmk ▸ pow_le_of_lt_mul_pow 24 253 m k hm hk
  have hlow : 2 ^ (F32.bitLen n + E) ≤ 2 * (n * 2 ^ E) := by
    rw [pow_add, ← mul_assoc]
    exact Nat.mul_le_mul_right _ hge
  have hbits : F32.bitLen n + E ≤ 277 := by
    have h1 : 2 ^ (F32.bitLen n + E) < 2 ^ (24 + 253 + 1) := by
      rw [pow_succ 2 (24 + 253)]
      omega
    have := (Nat.pow_lt_pow_iff_right (by decide : 1 < 2)).1 h1
    omega
  have hsh : max (F32.bitLen n - 24) (-149 - ((E : Int) - 149)).toNat = F32.bitLen n - 24 := by
    omega
  by_cases hb : F32.bitLen n ≤ 24
  · have hk : min (24 - F32.bitLen n) ((E : Int) - 149 + 149).toNat ≤ E := by omega
    refine ⟨n * 2 ^ min (24 - F32.bitLen n) ((E : Int) - 149 + 149).toNat,
      E - min (24 - F32.bitLen n) ((E : Int) - 149 + 149).toNat, ?_, ?_, by omega, ?_⟩
    · unfold F32.round
      simp only [hn0, if_false, hsh]
      have h0 : F32.bitLen n - 24 = 0 := by omega
      simp only [h0, if_true]
      rw [if_neg (by omega)]
      congr 1
      omega
    · have h1 := pow_le_of_lt_mul_pow (F32.bitLen n) (24 - F32.bitLen n) n
        (min (24 - F32.bitLen n) ((E : Int) - 149 + 149).toNat) hlt (by omega)
      rwa [show F32.bitLen n + (24 - F32.bitLen n) = 24 by omega] at h1
    · rw [mul_assoc, ← pow_add]
      congr 2
      omega
  · have hkE : E + (F32.bitLen n - 24) ≤ k := by
      by_contra hc
      have h1 := pow_le_of_lt_mul_pow 24 (E + (F32.bitLen n - 24) - 1) m k hm (by omega)
      have h2 : 24 + (E + (F32.bitLen n - 24) - 1) + 1 = F32.bitLen n + E := by omega
      have h3 : 2 ^ (F32.bitLen n + E) = 2 ^ (24 + (E + (F32.bitLen n - 24) - 1)) * 2 := by
        rw [← h2, pow_succ]
      omega
    obtain ⟨d, hd⟩ : ∃ d, k = d + (F32.bitLen n - 24) + E := ⟨k - E - (F32.bitLen n - 24), by omega⟩
    have hq : n = m * 2 ^ d * 2 ^ (F32.bitLen n - 24) := by
      have h1 : n * 2 ^ E = m * 2 ^ d * 2 ^ (F32.bitLen n - 24) * 2 ^ E := by
        rw [hmk, hd, pow_add, pow_add]
        ring
      exact Nat.eq_of_mul_eq_mul_right (by positivity) h1
    have hdiv : n / 2 ^ (F32.bitLen n - 24) = m * 2 ^ d :=
      Nat.div_eq_of_eq_mul_left (by positivity) hq
    have hmod : n % 2 ^ (F32.bitLen n - 24) = 0 :=
      Nat.mod_eq_zero_of_dvd ⟨m * 2 ^ d, by rw [mul_comm]; exact hq⟩
    have hq24 : m * 2 ^ d < 2 ^ 24 := by
      have h1 : m * 2 ^ d * 2 ^ (F32.bitLen n - 24) < 2 ^ 24 * 2 ^ (F32.bitLen n - 24) := by
        rw [← hq, ← pow_add, show 24 + (F32.bitLen n - 24) = F32.bitLen n by omega]
        exact hlt
      exact Nat.lt_of_mul_lt_mul_right h1
    have hhalf : 0 < 2 ^ (F32.bitLen n - 24 - 1) := by positivity
    refine ⟨m * 2 ^ d, E + (F32.bitLen n - 24), ?_, hq24, by omega, ?_⟩
    · unfold F32.round
      simp only [hn0, if_false, hsh]
      rw [if_neg (by omega)]
      simp only [hdiv, hmod]
      have hq1 : (if 0 > 2 ^ (F32.bitLen n - 24 - 1) ∨
          0 = 2 ^ (F32.bitLen n - 24 - 1) ∧ m * 2 ^ d % 2 = 1
          then m * 2 ^ d + 1 else m * 2 ^ d) = m * 2 ^ d := if_neg (by omega)
      rw [hq1, if_neg (by omega), if_neg (by omega)]
      congr 1
      push_cast
      omega
    · rw [pow_add, ← mul_assoc, mul_comm _ (2 ^ E), mul_comm n, mul_assoc, ← hq]

theorem signed_mul (neg : Bool) (a b : Nat) :
    F32.signed neg (a * b) = F32.signed neg a * (b : Int) := by
  cases neg <;> simp [F32.signed]

theorem signed_natAbs (s : Int) : F32.signed (decide (s < 0)) s.natAbs = s := by
  by_cases h : s < 0
  · simp only [F32.signed, h, decide_True, if_true]
    omega
  · simp only [F32.signed, h, decide_False, Bool.false_eq_true, if_false]
    omega

/-- When the exact sum of two finite numbers is a binary32 value, `x + y` is
that value. -/
theorem add_exact (x y : F32) (hx : F32.IsFinite x) (hy : F32.IsFinite y)
    (hrep : F32.Representable (F32.units x + F32.units y)) :
    F32.IsFinite (F32.add x y) ∧ F32.units (F32.add x y) = F32.units x + F32.units y := by
  cases x with
  | nan => exact absurd hx (by simp [F32.IsFinite])
  | inf _ => exact absurd hx (by simp [F32.IsFinite])
  | fin s1 m1 e1 =>
    cases y with
    | nan => exact absurd hy (by simp [F32.IsFinite])
    | inf _ => exact absurd hy (by simp [F32.IsFinite])
    | fin s2 m2 e2 =>
      simp only [F32.IsFinite] at hx hy
      obtain ⟨E, hE⟩ : ∃ E : Nat, min e1 e2 = (E : Int) - 149 :=
        ⟨(min e1 e2 + 149).toNat, by omega⟩
      have h1 : (e1 + 149).toNat = (e1 - min e1 e2).toNat + E := by omega
      have h2 : (e2 + 149).toNat = (e2 - min e1 e2).toNat + E := by omega
      have hsum : F32.units (.fin s1 m1 e1) + F32.units (.fin s2 m2 e2) =
          (F32.signed s1 (m1 * 2 ^ (e1 - min e1 e2).toNat) +
            F32.signed s2 (m2 * 2 ^ (e2 - min e1 e2).toNat)) * ((2 ^ E : Nat) : Int) := by
        simp only [F32.units, h1, h2, pow_add, ← mul_assoc]
        rw [signed_mul, signed_mul s2, add_mul]
      rw [hsum] at hrep ⊢
      simp only [F32.add]
      generalize F32.signed s1 (m1 * 2 ^ (e1 - min e1 e2).toNat) +
        F32.signed s2 (m2 * 2 ^ (e2 - min e1 e2).toNat) = s at hrep ⊢
      by_cases hs : s = 0
      · simp [hs, F32.IsFinite, F32.units, F32.signed]
      · simp only [hs, if_false, hE]
        obtain ⟨m, k, hm, hk, hmk⟩ := hrep
        rw [Int.natAbs_mul, Int.natAbs_ofNat] at hmk
        obtain ⟨m3, E3, hr, hm3, hE3, hv⟩ :=
          round_exact (decide (s < 0)) s.natAbs E (by omega) ⟨m, k, hm, hk, hmk⟩
        rw [hr]
        refine ⟨⟨hm3, by omega, by omega⟩, ?_⟩
        simp only [F32.units]
        rw [show ((E3 : Int) - 149 + 149).toNat = E3 by omega, hv, signed_mul, signed_natAbs]

/-! ## Applying a remote block -/

/-- C2 as stated fails: on the fresh chain the remote credit of 16777216 on
card 1 is applied; the following remote credit of 1 on card 1 is accepted
and appended, and the balance of card 1 is afterwards what it was before, the
`float32` value 16777216, not that value increased by 1. -/
theorem C2_accepted_block_keeps_balance :
    (∀ L : Lib,
      handleEvents L freshCash [.block (creditBig L)] = some (bigState L) ∧
      ValidateBlockAddition L (bigState L) (plusOne L) = some true ∧
      (plusOne L).CardId = 1 ∧ (plusOne L).Amount = F32.ofInt 1 ∧
      ∃ cs1, handleEvent L (bigState L) (.block (plusOne L)) = some (cs1, []) ∧
        cs1.Chain = (bigState L).Chain ++ [plusOne L] ∧
        cs1.balance 1 = (bigState L).balance 1 ∧
        (bigState L).balance 1 = F32.ofInt 16777216) ∧
    fmtF (F32.ofInt 16777216) = "16777216.000000" ∧ fmtF (F32.ofInt 1) = "1.000000" ∧
    F32.units (F32.ofInt 16777216) + F32.units (F32.ofInt 1) ≠
      F32.units (F32.ofInt 16777216) := by
  refine ⟨fun L => ?_, by decide, by decide, by decide⟩
  have hv1 : ValidateBlockAddition L freshCash (creditBig L) = some true :=
    (validate_eq_true_iff L freshCash _ _ getLatestBlock_freshCash).2
      ⟨rfl, rfl, rfl,
        (by decide : F32.lt0 (F32.add (freshCash.balance 1) (F32.ofInt 16777216)) = false),
        by simp [creditBig]⟩
  have htip : GetLatestBlock (bigState L) = some (creditBig L) := by
    simp [GetLatestBlock, bigState]
  have hv2 : ValidateBlockAddition L (bigState L) (plusOne L) = some true :=
    (validate_eq_true_iff L (bigState L) _ _ htip).2
      ⟨rfl, rfl, rfl,
        (by decide : F32.lt0 (F32.add (balanceAdd freshCash.balance 1 (F32.ofInt 16777216) 1)
          (F32.ofInt 1)) = false),
        by simp [plusOne]⟩
  refine ⟨?_, hv2, rfl, rfl,
    { bigState L with
        Chain := (bigState L).Chain ++ [plusOne L],
        balance := balanceAdd (bigState L).balance (plusOne L).CardId (plusOne L).Amount },
    by simp only [handleEvent, hv2], rfl, ?_, ?_⟩
  · simp only [handleEvents, handleEvent, hv1]
    rfl
  · show F32.add (balanceAdd freshCash.balance 1 (F32.ofInt 16777216) 1) (F32.ofInt 1) =
      balanceAdd freshCash.balance 1 (F32.ofInt 16777216) 1
    decide
  · show balanceAdd freshCash.balance 1 (F32.ofInt 16777216) 1 = F32.ofInt 16777216
    decide

/-- C2, amended: a block `b` received from `cs.Blocks` is applied if and only
if valid. When `ValidateBlockAddition` accepts it, the iteration publishes
nothing, the new chain is the old one with `b` appended last, the balance of
`b.CardId` becomes the `float32` sum of the old balance and `b.Amount`, which
is the old balance increased by exactly `b.Amount` whenever both are finite
and their exact sum is a `float32` value, and every other balance is
unchanged; when it rejects, the state is returned as it was. -/
theorem C2_remote_block_applied_iff_valid (L : Lib) (cs : ChainSubscription) (b : Block) :
    (ValidateBlockAddition L cs b = some true →
      ∃ cs1, handleEvent L cs (.block b) = some (cs1, []) ∧
        cs1.Chain = cs.Chain ++ [b] ∧
        cs1.balance b.CardId = F32.add (cs.balance b.CardId) b.Amount ∧
        (F32.IsFinite (cs.balance b.CardId) → F32.IsFinite b.Amount →
          F32.Representable (F32.units (cs.balance b.CardId) + F32.units b.Amount) →
            F32.IsFinite (cs1.balance b.CardId) ∧
            F32.units (cs1.balance b.CardId) =
              F32.units (cs.balance b.CardId) + F32.units b.Amount) ∧
        (∀ k, k ≠ b.CardId → cs1.balance k = cs.balance k) ∧
        cs1.self = cs.self ∧ cs1.nickName = cs.nickName ∧ cs1.typePos = cs.typePos) ∧
    (ValidateBlockAddition L cs b = some false →
      handleEvent L cs (.block b) = some (cs, [])) := by
  constructor
  · intro h
    have hbal : balanceAdd cs.balance b.CardId b.Amount b.CardId =
        F32.add (cs.balance b.CardId) b.Amount := by simp [balanceAdd]
    refine ⟨{ cs with Chain := cs.Chain ++ [b],
                      balance := balanceAdd cs.balance b.CardId b.Amount },
      by simp only [handleEvent, h], rfl, hbal, ?_, ?_, rfl, rfl, rfl⟩
    · intro hx hy hrep
      show F32.IsFinite (balanceAdd cs.balance b.CardId b.Amount b.CardId) ∧
        F32.units (balanceAdd cs.balance b.CardId b.Amount b.CardId) = _
      rw [hbal]
      exact add_exact _ _ hx hy hrep
    · intro k hk
      simp [balanceAdd, hk]
  · intro h
    simp only [handleEvent, h]

/-- C2, amended, on a concrete run: the credit of 10 on card 1 is accepted on
the fresh chain; applying it through the theorem gives the appended chain, and
since `0 + 10` is a `float32` value the balance of card 1 is increased by
exactly 10. -/
theorem C2_remote_block_applied_witness :
    ValidateBlockAddition demoLib freshCash (creditTen demoLib) = some true ∧
    ∃ cs1, handleEvent demoLib freshCash (.block (creditTen demoLib)) = some (cs1, []) ∧
      cs1.Chain = [GetGenesisBlock "t0", creditTen demoLib] ∧
      cs1.balance 1 = F32.ofInt 10 ∧ cs1.balance 2 = F32.zero ∧
      F32.units (cs1.balance 1) = F32.units (freshCash.balance 1) + F32.units (F32.ofInt 10) := by
  have hv : ValidateBlockAddition demoLib freshCash (creditTen demoLib) = some true :=
    (validate_eq_true_iff demoLib freshCash (GetGenesisBlock "t0") (creditTen demoLib) rfl).2
      ⟨rfl, rfl, rfl,
        (by decide : F32.lt0 (F32.add (freshCash.balance 1) (F32.ofInt 10)) = false),
        by simp [creditTen]⟩
  obtain ⟨cs1, h1, h2, h3, h4, h5, _⟩ :=
    (C2_remote_block_applied_iff_valid demoLib freshCash (creditTen demoLib)).1 hv
  have hfin0 : F32.IsFinite (freshCash.balance 1) := by
    show F32.IsFinite F32.zero
    simp [F32.IsFinite, F32.zero]
  have hfin10 : F32.IsFinite (F32.ofInt 10) := by
    rw [show F32.ofInt 10 = .fin false (10 * 2 ^ 20) (-20) by decide]
    simp [F32.IsFinite]
  have hrep : F32.Representable (F32.units (freshCash.balance 1) + F32.units (F32.ofInt 10)) :=
    ⟨10, 149, by decide, by decide, by decide⟩
  refine ⟨hv, cs1, h1, h2, ?_, ?_, (h4 hfin0 hfin10 hrep).2⟩
  · rw [show (1 : Int) = (creditTen demoLib).CardId from rfl, h3]; rfl
  · rw [h5 2 (by decide)]; rfl

end Spirit
